import Mathlib

set_option autoImplicit false
set_option maxHeartbeats 1000000

namespace ChemLang

/-!
Verification development for the chemistry-language interpreter.

Each Python source artefact referenced below is embedded as executable Lean
definitions; stateful Python code becomes explicit state passing, machine
behaviour that raises becomes `Option`/`Except`, and external libraries
(sympy, pint) enter as explicitly quantified inputs whose documented
behaviour becomes a hypothesis.
-/

/-! ## Environment (`ch_env.py`)

Python's `Env` is a parent-linked record where `assign` mutates at most one
`parent` pointer.  We embed it as an explicit heap: records addressed by
index into a list, allocation appends, the single pointer mutation becomes
`List.set`.  Variable tables (`dict`) become insertion-ordered association
lists; `dict.copy()` followed by `copy[name] = value` keeps the position of
an existing key, which `varsSet` reproduces.
-/

structure EnvRec (V : Type) where
  parent : Option Nat
  vars : List (String × V)
  deriving Repr, DecidableEq

abbrev Heap (V : Type) := List (EnvRec V)

/-- Python `vars[name]` / `name in vars` for an insertion-ordered dict. -/
def varsGet {V : Type} : List (String × V) → String → Option V
  | [], _ => none
  | (k, v) :: rest, n => if k = n then some v else varsGet rest n

/-- Python `copy = vars.copy(); copy[name] = value`: replacing an existing
key keeps its position, a fresh key is appended. -/
def varsSet {V : Type} : List (String × V) → String → V → List (String × V)
  | [], n, v => [(n, v)]
  | (k, w) :: rest, n, v =>
    if k = n then (n, v) :: rest else (k, w) :: varsSet rest n v

/-- `name in vars` for the record at address `a`. -/
def hasName {V : Type} (h : Heap V) (a : Nat) (name : String) : Bool :=
  match h[a]? with
  | some r => (varsGet r.vars name).isSome
  | none => false

/-- `Env.lookup`, fuelled against cyclic parent chains.  `none` covers the
"Variable not found" error (reaching a parentless record without a hit) as
well as fuel exhaustion, which acyclic heaps never trigger. -/
def lookupEnv {V : Type} : Nat → Heap V → Nat → String → Option V
  | 0, _, _, _ => none
  | fuel + 1, h, i, name =>
    match h[i]? with
    | none => none
    | some r =>
      match varsGet r.vars name with
      | some v => some v
      | none =>
        match r.parent with
        | none => none
        | some p => lookupEnv fuel h p name

/-- The `while parent is not None` loop of `Env.assign`.  `selfIdx` is the
receiver; `child`/`parentIdx` are the two walk pointers.  Allocating
`Env(parent.parent, copy)` appends to the heap; the one mutation
`child.parent = ...` becomes `List.set`.  The returned address is what the
Python method returns (`self` after a rethread, the fresh record
otherwise). -/
def assignWalk {V : Type} :
    Nat → Heap V → Nat → Option Nat → Option Nat → String → V →
      Option (Heap V × Nat)
  | 0, _, _, _, _, _, _ => none
  | fuel + 1, h, selfIdx, child, parentIdx, name, v =>
    match parentIdx with
    | none =>
      -- fell off the chain: create the binding in the current scope
      match h[selfIdx]? with
      | none => none
      | some r => some (h ++ [⟨r.parent, varsSet r.vars name v⟩], h.length)
    | some p =>
      match h[p]? with
      | none => none
      | some r =>
        if (varsGet r.vars name).isSome then
          match child with
          | none =>
            -- "Self": the innermost scope already holds the name
            some (h ++ [⟨r.parent, varsSet r.vars name v⟩], h.length)
          | some c =>
            -- "Modify reference": rethread the child's parent pointer
            let h1 := h ++ [(⟨r.parent, varsSet r.vars name v⟩ : EnvRec V)]
            match h1[c]? with
            | none => none
            | some rc => some (h1.set c ⟨some h.length, rc.vars⟩, selfIdx)
        else
          assignWalk fuel h selfIdx (some p) r.parent name v

/-- `Env.assign`: start the walk with `child, parent = None, self`. -/
def assignEnv {V : Type} (fuel : Nat) (h : Heap V) (e : Nat) (name : String)
    (v : V) : Option (Heap V × Nat) :=
  assignWalk fuel h e none (some e) name v

/-- The parent path from address `i` to the root, as scanned by the walks. -/
def chainEnv {V : Type} : Nat → Heap V → Nat → Option (List Nat)
  | 0, _, _ => none
  | fuel + 1, h, i =>
    match h[i]? with
    | none => none
    | some r =>
      match r.parent with
      | none => some [i]
      | some p => (chainEnv fuel h p).map (i :: ·)

theorem varsGet_varsSet_same {V : Type} (l : List (String × V)) (n : String)
    (v : V) : varsGet (varsSet l n v) n = some v := by
  induction l with
  | nil => simp [varsSet, varsGet]
  | cons hd tl ih =>
    obtain ⟨k, w⟩ := hd
    by_cases hk : k = n
    · simp [varsSet, varsGet, hk]
    · simp [varsSet, varsGet, hk, ih]

theorem varsGet_varsSet_other {V : Type} (l : List (String × V))
    (n m : String) (v : V) (hnm : m ≠ n) :
    varsGet (varsSet l n v) m = varsGet l m := by
  induction l with
  | nil =>
    simp only [varsSet, varsGet]
    rw [if_neg (fun he => hnm he.symm)]
  | cons hd tl ih =>
    obtain ⟨k, w⟩ := hd
    by_cases hk : k = n
    · subst hk
      simp only [varsSet, if_pos rfl, varsGet]
      rw [if_neg (fun he => hnm he.symm), if_neg (fun he => hnm he.symm)]
    · simp only [varsSet, if_neg hk, varsGet]
      by_cases hm : k = m
      · simp [hm]
      · simp [hm, ih]

theorem chainEnv_head {V : Type} (f : Nat) (h : Heap V) (i : Nat)
    (as : List Nat) (hc : chainEnv f h i = some as) : as.head? = some i := by
  cases f with
  | zero => simp [chainEnv] at hc
  | succ f =>
    unfold chainEnv at hc
    cases hh : h[i]? with
    | none => simp [hh] at hc
    | some r =>
      cases hp : r.parent with
      | none =>
        simp [hh, hp] at hc
        subst hc; rfl
      | some p =>
        simp only [hh, hp, Option.map_eq_some'] at hc
        obtain ⟨as', _, rfl⟩ := hc
        rfl

theorem chainEnv_length_le {V : Type} :
    ∀ (f : Nat) (h : Heap V) (i : Nat) (as : List Nat),
      chainEnv f h i = some as → as.length ≤ f := by
  intro f
  induction f with
  | zero => intro h i as hc; simp [chainEnv] at hc
  | succ f ih =>
    intro h i as hc
    unfold chainEnv at hc
    cases hh : h[i]? with
    | none => simp [hh] at hc
    | some r =>
      cases hp : r.parent with
      | none =>
        simp [hh, hp] at hc
        subst hc; simp
      | some p =>
        simp only [hh, hp, Option.map_eq_some'] at hc
        obtain ⟨as', hc', rfl⟩ := hc
        simpa using ih h p as' hc'

theorem chainEnv_valid_head {V : Type} (f : Nat) (h : Heap V) (i : Nat)
    (as : List Nat) (hc : chainEnv f h i = some as) : ∃ r, h[i]? = some r := by
  cases f with
  | zero => simp [chainEnv] at hc
  | succ f =>
    unfold chainEnv at hc
    cases hh : h[i]? with
    | none => simp [hh] at hc
    | some r => exact ⟨r, rfl⟩

theorem mem_of_head?_eq {α : Type} {l : List α} {a : α}
    (h : l.head? = some a) : a ∈ l := by
  cases l with
  | nil => simp at h
  | cons b t =>
    simp only [List.head?] at h
    injection h with h
    exact h ▸ List.mem_cons_self b t

theorem mem_of_getLast?_eq {α : Type} {l : List α} {a : α}
    (h : l.getLast? = some a) : a ∈ l := by
  have hm : a ∈ l.getLast? := by simp [Option.mem_def, h]
  obtain ⟨hne, rfl⟩ := List.mem_getLast?_eq_getLast hm
  exact List.getLast_mem hne

theorem getv_set_append_ne {V : Type} (h : Heap V) (x y : EnvRec V)
    (c a : Nat) (ha : a < h.length) (hne : a ≠ c) :
    ((h ++ [x]).set c y)[a]? = h[a]? := by
  rw [List.getElem?_set_ne (Ne.symm hne), List.getElem?_append]
  simp [ha]

theorem getv_set_append_self {V : Type} (h : Heap V) (x y : EnvRec V)
    (c : Nat) (hc : c < h.length) :
    ((h ++ [x]).set c y)[c]? = some y := by
  rw [List.getElem?_set_self]
  simp only [List.length_append, List.length_cons, List.length_nil]
  omega

theorem getv_set_append_len {V : Type} (h : Heap V) (x y : EnvRec V)
    (c : Nat) (hc : c < h.length) :
    ((h ++ [x]).set c y)[h.length]? = some x := by
  rw [List.getElem?_set_ne (Nat.ne_of_lt hc)]
  exact List.getElem?_concat_length h x

theorem chainEnv_mono {V : Type} :
    ∀ (f f' : Nat), f ≤ f' → ∀ (h : Heap V) (i : Nat) (as : List Nat),
      chainEnv f h i = some as → chainEnv f' h i = some as := by
  intro f
  induction f with
  | zero => intro f' _ h i as hc; simp [chainEnv] at hc
  | succ g ih =>
    intro f' hle h i as hc
    obtain ⟨g', rfl⟩ : ∃ g'', f' = g'' + 1 := ⟨f' - 1, by omega⟩
    unfold chainEnv at hc ⊢
    cases hh : h[i]? with
    | none => simp [hh] at hc
    | some r =>
      simp only [hh] at hc ⊢
      cases hp : r.parent with
      | none => simpa [hp] using hc
      | some p =>
        simp only [hp, Option.map_eq_some'] at hc ⊢
        obtain ⟨as', h1, rfl⟩ := hc
        exact ⟨as', ih g' (by omega) h p as' h1, rfl⟩

theorem chainEnv_suffix {V : Type} :
    ∀ (as1 : List Nat) (f : Nat) (h : Heap V) (i a : Nat) (as2 : List Nat),
      chainEnv f h i = some (as1 ++ a :: as2) →
      chainEnv f h a = some (a :: as2) := by
  intro as1
  induction as1 with
  | nil =>
    intro f h i a as2 hc
    have hh := chainEnv_head f h i _ hc
    simp only [List.nil_append, List.head?] at hh
    injection hh with hh
    exact hh ▸ hc
  | cons b as1' ih =>
    intro f h i a as2 hc
    cases f with
    | zero => simp [chainEnv] at hc
    | succ g =>
      unfold chainEnv at hc
      cases hh : h[i]? with
      | none => simp [hh] at hc
      | some r =>
        cases hp : r.parent with
        | none =>
          simp only [hh, hp, Option.some.injEq] at hc
          have : as1' ++ a :: as2 = [] := by
            have := congrArg List.tail hc
            simpa using this
          simp at this
        | some p =>
          simp only [hh, hp, Option.map_eq_some'] at hc
          obtain ⟨as', h1, he⟩ := hc
          have htl : as' = as1' ++ a :: as2 := by
            have := congrArg List.tail he
            simpa using this
          subst htl
          exact chainEnv_mono g (g + 1) (Nat.le_succ g) h a _ (ih g h p a as2 h1)

theorem chainEnv_parent {V : Type} :
    ∀ (f : Nat) (h : Heap V) (i0 : Nat) (as : List Nat),
      chainEnv f h i0 = some as →
      ∀ i ∈ as, ∀ r, h[i]? = some r →
        r.parent = none ∨ ∃ p, r.parent = some p ∧ p ∈ as := by
  intro f
  induction f with
  | zero => intro h i0 as hc; simp [chainEnv] at hc
  | succ g ih =>
    intro h i0 as hc i hi r hr
    unfold chainEnv at hc
    cases hh : h[i0]? with
    | none => simp [hh] at hc
    | some r0 =>
      cases hp : r0.parent with
      | none =>
        simp only [hh, hp, Option.some.injEq] at hc
        subst hc
        simp only [List.mem_singleton] at hi
        subst hi
        rw [hh] at hr
        injection hr with hr
        subst hr
        exact Or.inl hp
      | some p =>
        simp only [hh, hp, Option.map_eq_some'] at hc
        obtain ⟨as', h1, rfl⟩ := hc
        rcases List.mem_cons.mp hi with rfl | hi'
        · rw [hh] at hr
          injection hr with hr
          subst hr
          refine Or.inr ⟨p, hp, ?_⟩
          exact List.mem_cons_of_mem _ (mem_of_head?_eq (chainEnv_head g h p as' h1))
        · rcases ih h p as' h1 i hi' r hr with hnone | ⟨q, hq, hqm⟩
          · exact Or.inl hnone
          · exact Or.inr ⟨q, hq, List.mem_cons_of_mem _ hqm⟩

theorem chainEnv_valid_mem {V : Type} :
    ∀ (f : Nat) (h : Heap V) (i0 : Nat) (as : List Nat),
      chainEnv f h i0 = some as → ∀ i ∈ as, ∃ r, h[i]? = some r := by
  intro f
  induction f with
  | zero => intro h i0 as hc; simp [chainEnv] at hc
  | succ g ih =>
    intro h i0 as hc i hi
    unfold chainEnv at hc
    cases hh : h[i0]? with
    | none => simp [hh] at hc
    | some r0 =>
      cases hp : r0.parent with
      | none =>
        simp only [hh, hp, Option.some.injEq] at hc
        subst hc
        simp only [List.mem_singleton] at hi
        exact hi ▸ ⟨r0, hh⟩
      | some p =>
        simp only [hh, hp, Option.map_eq_some'] at hc
        obtain ⟨as', h1, rfl⟩ := hc
        rcases List.mem_cons.mp hi with rfl | hi'
        · exact ⟨r0, hh⟩
        · exact ih h p as' h1 i hi'

theorem assignWalk_rethreads {V : Type} (name : String) (v : V) :
    ∀ (pre : List Nat) (f0 fuel : Nat) (h : Heap V) (selfIdx start : Nat)
      (child : Option Nat) (ai : Nat) (post : List Nat),
      chainEnv f0 h start = some (pre ++ ai :: post) →
      pre.head? = some start →
      (∀ a ∈ pre, hasName h a name = false) →
      hasName h ai name = true →
      pre.length + 1 ≤ fuel →
      ∃ (rai rc : EnvRec V) (c : Nat),
        h[ai]? = some rai ∧ pre.getLast? = some c ∧ h[c]? = some rc ∧
        assignWalk fuel h selfIdx child (some start) name v =
          some ((h ++ [(⟨rai.parent, varsSet rai.vars name v⟩ : EnvRec V)]).set c
                  ⟨some h.length, rc.vars⟩, selfIdx) := by
  intro pre
  induction pre with
  | nil =>
    intro _ _ _ _ _ _ _ _ _ hhead
    simp at hhead
  | cons b pre' ih =>
    intro f0 fuel h selfIdx start child ai post hchain hhead hmiss hfound hfuel
    have hb : b = start := by
      simp only [List.head?] at hhead
      injection hhead
    subst hb
    cases f0 with
    | zero => simp [chainEnv] at hchain
    | succ g0 =>
      unfold chainEnv at hchain
      cases hh : h[b]? with
      | none => simp [hh] at hchain
      | some r =>
        cases hp : r.parent with
        | none =>
          simp only [hh, hp, Option.some.injEq] at hchain
          have hgoal : pre' ++ ai :: post = [] := by
            have := congrArg List.tail hchain
            simpa using this
          simp at hgoal
        | some p =>
          simp only [hh, hp, Option.map_eq_some'] at hchain
          obtain ⟨as', h1, he⟩ := hchain
          have htl : as' = pre' ++ ai :: post := by
            have := congrArg List.tail he
            simpa using this
          subst htl
          obtain ⟨fl, rfl⟩ : ∃ fl, fuel = fl + 1 := ⟨fuel - 1, by omega⟩
          have hmiss0 : (varsGet r.vars name).isSome = false := by
            have := hmiss b (List.mem_cons_self _ _)
            simpa [hasName, hh] using this
          have hstep :
              assignWalk (fl + 1) h selfIdx child (some b) name v =
                assignWalk fl h selfIdx (some b) (some p) name v := by
            conv_lhs => unfold assignWalk
            simp [hh, hmiss0, hp]
          cases pre' with
          | nil =>
            -- next scope is ai: the walk rethreads b's parent pointer
            have hpai : p = ai := by
              have := chainEnv_head g0 h p _ h1
              simp only [List.nil_append, List.head?] at this
              injection this with this
              exact this.symm
            subst hpai
            obtain ⟨rai, hrai⟩ : ∃ r', h[p]? = some r' :=
              chainEnv_valid_head g0 h p _ h1
            have hfnd : (varsGet rai.vars name).isSome = true := by
              simpa [hasName, hrai] using hfound
            obtain ⟨fl', rfl⟩ : ∃ fl', fl = fl' + 1 :=
              ⟨fl - 1, by simp only [List.length_cons, List.length_nil] at hfuel; omega⟩
            have hblen : b < h.length := (List.getElem?_eq_some.mp hh).1
            refine ⟨rai, r, b, hrai, rfl, hh, ?_⟩
            rw [hstep]
            conv_lhs => unfold assignWalk
            have hget : (h ++ [(⟨rai.parent, varsSet rai.vars name v⟩ :
                EnvRec V)])[b]? = some r := by
              rw [List.getElem?_append, if_pos hblen]
              exact hh
            simp [hrai, hfnd, hget]
          | cons b' pre'' =>
            have hhead' : (b' :: pre'').head? = some p := by
              have := chainEnv_head g0 h p _ h1
              simp only [List.cons_append, List.head?] at this ⊢
              exact this.symm ▸ rfl
            have hmiss' : ∀ a ∈ b' :: pre'', hasName h a name = false :=
              fun a ha => hmiss a (List.mem_cons_of_mem _ ha)
            have hfuel' : (b' :: pre'').length + 1 ≤ fl := by
              simp only [List.length_cons] at hfuel ⊢
              omega
            obtain ⟨rai, rc, c, h_ai, hlast, h_c, heq⟩ :=
              ih g0 fl h selfIdx p (some b) ai post h1 hhead' hmiss' hfound hfuel'
            refine ⟨rai, rc, c, h_ai, ?_, h_c, ?_⟩
            · rw [List.getLast?_cons_cons]
              exact hlast
            · rw [hstep, heq]

theorem lookupEnv_after_assign {V : Type} (name : String) (v : V)
    (h : Heap V) (ai : Nat) (rai : EnvRec V) :
    ∀ (as : List Nat) (c : Nat) (rc : EnvRec V) (f0 start : Nat)
      (post : List Nat) (fuel : Nat),
      h[c]? = some rc →
      chainEnv f0 h start = some (as ++ ai :: post) →
      as.head? = some start →
      as.getLast? = some c →
      (∀ a ∈ as, hasName h a name = false) →
      as.Nodup →
      as.length + 1 ≤ fuel →
      lookupEnv fuel
        ((h ++ [(⟨rai.parent, varsSet rai.vars name v⟩ : EnvRec V)]).set c
          ⟨some h.length, rc.vars⟩) start name = some v := by
  intro as
  induction as with
  | nil => intro _ _ _ _ _ _ _ _ hhead; simp at hhead
  | cons b rest ih =>
    intro c rc f0 start post fuel h_c hchain hhead hlast hmiss hnodup hfuel
    have hb : b = start := by
      simp only [List.head?] at hhead
      injection hhead
    subst hb
    have hclen : c < h.length := (List.getElem?_eq_some.mp h_c).1
    obtain ⟨fl, rfl⟩ : ∃ fl, fuel = fl + 1 :=
      ⟨fuel - 1, by simp only [List.length_cons] at hfuel; omega⟩
    cases rest with
    | nil =>
      -- the single scope is c itself; its rethreaded parent is the new record
      have hbc : b = c := by
        simp only [List.getLast?_singleton] at hlast
        injection hlast
      subst hbc
      have hmb : (varsGet rc.vars name) = none := by
        have := hmiss b (List.mem_cons_self _ _)
        simp only [hasName, h_c] at this
        exact Option.not_isSome_iff_eq_none.mp (by simp [this])
      obtain ⟨fl', rfl⟩ : ∃ fl', fl = fl' + 1 :=
        ⟨fl - 1, by simp only [List.length_cons, List.length_nil] at hfuel; omega⟩
      unfold lookupEnv
      rw [getv_set_append_self h _ _ b hclen]
      simp only [hmb]
      unfold lookupEnv
      rw [getv_set_append_len h _ _ b hclen]
      simp [varsGet_varsSet_same]
    | cons b' rest' =>
      have hbc : b ≠ c := by
        intro hbc
        have hcm : c ∈ b' :: rest' := by
          apply mem_of_getLast?_eq
          rw [List.getLast?_cons_cons] at hlast
          exact hlast
        exact (List.nodup_cons.mp hnodup).1 (by rw [hbc]; exact hcm)
      cases f0 with
      | zero => simp [chainEnv] at hchain
      | succ g0 =>
        unfold chainEnv at hchain
        cases hh : h[b]? with
        | none => simp [hh] at hchain
        | some r =>
          cases hp : r.parent with
          | none =>
            simp only [hh, hp, Option.some.injEq] at hchain
            have : (b' :: rest') ++ ai :: post = [] := by
              have := congrArg List.tail hchain
              simpa using this
            simp at this
          | some p =>
            simp only [hh, hp, Option.map_eq_some'] at hchain
            obtain ⟨as', h1, he⟩ := hchain
            have htl : as' = (b' :: rest') ++ ai :: post := by
              have := congrArg List.tail he
              simpa using this
            subst htl
            have hblen : b < h.length := (List.getElem?_eq_some.mp hh).1
            have hmb : (varsGet r.vars name) = none := by
              have := hmiss b (List.mem_cons_self _ _)
              simp only [hasName, hh] at this
              exact Option.not_isSome_iff_eq_none.mp (by simp [this])
            have hhead' : (b' :: rest').head? = some p := by
              have := chainEnv_head g0 h p _ h1
              simp only [List.cons_append, List.head?] at this ⊢
              exact this.symm ▸ rfl
            have hrec := ih c rc g0 p post fl h_c h1 hhead'
              (by rw [List.getLast?_cons_cons] at hlast; exact hlast)
              (fun a ha => hmiss a (List.mem_cons_of_mem _ ha))
              (List.nodup_cons.mp hnodup).2
              (by simp only [List.length_cons] at hfuel ⊢; omega)
            unfold lookupEnv
            rw [getv_set_append_ne h _ _ c b hblen hbc, hh]
            simp only [hmb, hp]
            exact hrec

theorem lookupEnv_step {V : Type} (g : Nat) (h : Heap V) (i : Nat)
    (name : String) (r : EnvRec V) (hr : h[i]? = some r) :
    lookupEnv (g + 1) h i name =
      match varsGet r.vars name with
      | some v => some v
      | none =>
        match r.parent with
        | none => none
        | some p => lookupEnv g h p name := by
  conv_lhs => unfold lookupEnv
  rw [hr]

theorem chainEnv_cons_parent {V : Type} (f : Nat) (h : Heap V) (cIdx x : Nat)
    (xs : List Nat) (hc : chainEnv f h cIdx = some (cIdx :: x :: xs))
    (rc : EnvRec V) (hrc : h[cIdx]? = some rc) : rc.parent = some x := by
  cases f with
  | zero => simp [chainEnv] at hc
  | succ g =>
    unfold chainEnv at hc
    rw [hrc] at hc
    cases hp : rc.parent with
    | none =>
      simp only [hp, Option.some.injEq] at hc
      have := congrArg List.tail hc
      simp at this
    | some p =>
      simp only [hp, Option.map_eq_some'] at hc
      obtain ⟨as', h1, he⟩ := hc
      have htl : as' = x :: xs := by
        have := congrArg List.tail he
        simpa using this
      subst htl
      have := chainEnv_head g h p _ h1
      simp only [List.head?] at this
      injection this with this
      rw [this]

theorem lookupEnv_frame_assign {V : Type} (name name' : String)
    (hne : name' ≠ name) (v : V) (h : Heap V) (ai c : Nat)
    (rai rc : EnvRec V) (h_ai : h[ai]? = some rai) (h_c : h[c]? = some rc)
    (hcar : rc.parent = some ai)
    (f0 selfIdx : Nat) (pre post : List Nat)
    (hchain : chainEnv f0 h selfIdx = some (pre ++ ai :: post)) :
    ∀ (g : Nat), ∀ i ∈ pre ++ ai :: post,
      lookupEnv g
        ((h ++ [(⟨rai.parent, varsSet rai.vars name v⟩ : EnvRec V)]).set c
          ⟨some h.length, rc.vars⟩) i name' =
      lookupEnv g h i name' := by
  intro g
  induction g using Nat.strong_induction_on with
  | _ g ih =>
    intro i hi
    cases g with
    | zero => rfl
    | succ g' =>
      obtain ⟨r, hr⟩ := chainEnv_valid_mem f0 h selfIdx _ hchain i hi
      have hilen : i < h.length := (List.getElem?_eq_some.mp hr).1
      have hclen : c < h.length := (List.getElem?_eq_some.mp h_c).1
      by_cases hic : i = c
      · subst hic
        have hr' : r = rc := by
          rw [hr] at h_c
          injection h_c
        subst hr'
        rw [lookupEnv_step g' _ i name' ⟨some h.length, r.vars⟩
            (getv_set_append_self h _ _ i hclen),
          lookupEnv_step g' h i name' r hr]
        cases hv : varsGet r.vars name' with
        | some w => simp [hv]
        | none =>
          simp only [hv, hcar]
          cases g' with
          | zero => rfl
          | succ g'' =>
            rw [lookupEnv_step g'' _ h.length name' _
                (getv_set_append_len h _ _ i hclen),
              lookupEnv_step g'' h ai name' rai h_ai]
            simp only [varsGet_varsSet_other rai.vars name name' v hne]
            cases hv2 : varsGet rai.vars name' with
            | some w => simp [hv2]
            | none =>
              simp only [hv2]
              cases hp2 : rai.parent with
              | none => rfl
              | some q =>
                have hqm : q ∈ pre ++ ai :: post := by
                  rcases chainEnv_parent f0 h selfIdx _ hchain ai
                      (by simp) rai h_ai with hnone | ⟨q', hq', hq'm⟩
                  · rw [hp2] at hnone; cases hnone
                  · rw [hp2] at hq'
                    injection hq' with hq'
                    exact hq' ▸ hq'm
                have hres := ih g'' (by omega) q hqm
                rw [hp2] at hres
                exact hres
      · rw [lookupEnv_step g' _ i name' r
            (by rw [getv_set_append_ne h _ _ c i hilen hic]; exact hr),
          lookupEnv_step g' h i name' r hr]
        cases hv : varsGet r.vars name' with
        | some w => simp [hv]
        | none =>
          simp only [hv]
          cases hp2 : r.parent with
          | none => rfl
          | some q =>
            have hqm : q ∈ pre ++ ai :: post := by
              rcases chainEnv_parent f0 h selfIdx _ hchain i hi r hr with
                hnone | ⟨q', hq', hq'm⟩
              · rw [hp2] at hnone; cases hnone
              · rw [hp2] at hq'
                injection hq' with hq'
                exact hq' ▸ hq'm
            exact ih g' (by omega) q hqm

/-- **C8.**  `Env.assign` of a name bound only in an enclosing
(non-innermost) scope of the chain: the walk rethreads the deepest affected
child pointer to a fresh record, returns `self`, leaves the variable table
of every pre-existing record unchanged, makes the new value visible from
the environment itself and from every affected enclosing scope (closures
that captured those scopes), and changes the lookup of no other name. -/
theorem env_assign_outer_scope {V : Type} (f : Nat) (h : Heap V)
    (selfIdx ai : Nat) (pre post : List Nat) (name : String) (v : V)
    (hchain : chainEnv f h selfIdx = some (pre ++ ai :: post))
    (hpre : pre ≠ [])
    (hnodup : (pre ++ ai :: post).Nodup)
    (hmiss : ∀ a ∈ pre, hasName h a name = false)
    (hfound : hasName h ai name = true) :
    ∃ h', assignEnv f h selfIdx name v = some (h', selfIdx) ∧
      (∀ a, a < h.length →
        (h'[a]?).map EnvRec.vars = (h[a]?).map EnvRec.vars) ∧
      lookupEnv f h' selfIdx name = some v ∧
      (∀ name', name' ≠ name →
        ∀ g, lookupEnv g h' selfIdx name' = lookupEnv g h selfIdx name') ∧
      (∀ a ∈ pre, lookupEnv f h' a name = some v) := by
  have hhead : pre.head? = some selfIdx := by
    have hh := chainEnv_head f h selfIdx _ hchain
    cases pre with
    | nil => exact absurd rfl hpre
    | cons b t => simpa using hh
  have hlenf : pre.length + 1 ≤ f := by
    have := chainEnv_length_le f h selfIdx _ hchain
    simp only [List.length_append, List.length_cons] at this
    omega
  obtain ⟨rai, rc, c, h_ai, hlast, h_c, heq⟩ :=
    assignWalk_rethreads name v pre f f h selfIdx selfIdx none ai post
      hchain hhead hmiss hfound hlenf
  have hclen : c < h.length := (List.getElem?_eq_some.mp h_c).1
  -- the rethreaded record's old parent is ai
  have hcar : rc.parent = some ai := by
    obtain ⟨l', rfl⟩ := List.getLast?_eq_some_iff.mp hlast
    have hch : chainEnv f h c = some (c :: ai :: post) := by
      have := chainEnv_suffix l' f h selfIdx c (ai :: post)
        (by rw [hchain]; simp)
      exact this
    exact chainEnv_cons_parent f h c ai post hch rc h_c
  refine ⟨_, heq, ?_, ?_, ?_, ?_⟩
  · intro a ha
    by_cases hac : a = c
    · subst hac
      rw [getv_set_append_self h _ _ a hclen, h_c]
      rfl
    · rw [getv_set_append_ne h _ _ c a ha hac]
  · exact lookupEnv_after_assign name v h ai rai pre c rc f selfIdx post f
      h_c hchain hhead hlast hmiss hnodup.of_append_left hlenf
  · intro name' hne g
    exact lookupEnv_frame_assign name name' hne v h ai c rai rc h_ai h_c
      hcar f selfIdx pre post hchain g selfIdx
      (mem_of_head?_eq (by
        cases pre with
        | nil => exact absurd rfl hpre
        | cons b t => simpa using hhead))
  · intro a ha
    obtain ⟨s, t, rfl⟩ := List.append_of_mem ha
    have hch : chainEnv f h a = some ((a :: t) ++ ai :: post) := by
      have := chainEnv_suffix s f h selfIdx a (t ++ ai :: post)
        (by rw [hchain]; simp)
      simpa using this
    have hlast' : (a :: t).getLast? = some c := by
      have : (s ++ a :: t).getLast? = (a :: t).getLast? :=
        List.getLast?_append_of_ne_nil s (by simp)
      rw [← this]
      exact hlast
    have hsub : (a :: t).Sublist (s ++ a :: t) := List.sublist_append_right s _
    refine lookupEnv_after_assign name v h ai rai (a :: t) c rc f a post f
      h_c hch rfl hlast' ?_ (hnodup.of_append_left.sublist hsub) ?_
    · intro x hx
      exact hmiss x (hsub.mem hx)
    · have : (s ++ a :: t).length + 1 ≤ f := hlenf
      simp only [List.length_append, List.length_cons] at this ⊢
      omega

/-- Witness for C8 at a concrete two-scope chain: scope 0 (innermost,
binding `a`) has parent 1 (binding `x` and `b`); assigning `x` from scope 0
rethreads and the new value is visible while `a` and `b` are untouched. -/
theorem env_assign_outer_scope_witness :
    ∃ h', assignEnv 2
        [({ parent := some 1, vars := [("a", 5)] } : EnvRec Nat),
         { parent := none, vars := [("x", 1), ("b", 2)] }] 0 "x" 9 =
        some (h', 0) ∧
      (∀ a, a < ([({ parent := some 1, vars := [("a", 5)] } : EnvRec Nat),
          { parent := none, vars := [("x", 1), ("b", 2)] }] : Heap Nat).length →
        (h'[a]?).map EnvRec.vars =
          (([({ parent := some 1, vars := [("a", 5)] } : EnvRec Nat),
            { parent := none, vars := [("x", 1), ("b", 2)] }] :
              Heap Nat)[a]?).map EnvRec.vars) ∧
      lookupEnv 2 h' 0 "x" = some 9 ∧
      (∀ name', name' ≠ "x" →
        ∀ g, lookupEnv g h' 0 name' =
          lookupEnv g [({ parent := some 1, vars := [("a", 5)] } : EnvRec Nat),
            { parent := none, vars := [("x", 1), ("b", 2)] }] 0 name') ∧
      (∀ a ∈ [0], lookupEnv 2 h' a "x" = some 9) :=
  env_assign_outer_scope 2
    [({ parent := some 1, vars := [("a", 5)] } : EnvRec Nat),
     { parent := none, vars := [("x", 1), ("b", 2)] }] 0 1 [0] [] "x" 9
    (by decide) (by decide) (by decide) (by decide) (by decide)

/-! ## Python `decimal.Decimal` (value layer of `objs/ch_number.py`)

`SignificantDigits` stores its magnitude as a Python `Decimal`.  A finite
`Decimal` is sign × coefficient × 10^exponent, and both `str()` and
`as_tuple().exponent` depend on that representation, so the embedding keeps
the triple.  The module never touches the thread context, so arithmetic
runs at the Python defaults: precision 28, `ROUND_HALF_EVEN`.  Python
strings appear as `List Char`. -/

structure PyDecimal where
  sign : Bool      -- `true` = negative
  coeff : Nat
  exp : Int
  deriving Repr, DecidableEq

/-- Decimal digits of `n`, little-endian, by fuelled division (kernel
computable; agrees with `Nat.digits 10`). -/
def digitsLE : Nat → Nat → List Nat
  | 0, _ => []
  | _ + 1, 0 => []
  | fuel + 1, n => n % 10 :: digitsLE fuel (n / 10)

theorem digitsLE_eq_digits :
    ∀ (fuel n : Nat), n < fuel → digitsLE fuel n = Nat.digits 10 n := by
  intro fuel
  induction fuel with
  | zero => intro n h; omega
  | succ f ih =>
    intro n h
    cases n with
    | zero => simp [digitsLE]
    | succ m =>
      rw [digitsLE, Nat.digits_def' (by norm_num : 1 < 10) (Nat.succ_pos m),
        ih ((m + 1) / 10) (by omega)]
      omega

/-- `str()` of the coefficient of a `Decimal`: its digit characters, most
significant first (`"0"` for zero). -/
def digitChars (n : Nat) : List Char :=
  if n = 0 then ['0'] else ((digitsLE (n + 1) n).reverse.map Nat.digitChar)

/-- `len(str(coefficient))`. -/
def numDigits (n : Nat) : Nat := (digitChars n).length

namespace PyDecimal

def toRat (d : PyDecimal) : ℚ :=
  (if d.sign then -1 else 1) * (d.coeff : ℚ) * (10 : ℚ) ^ d.exp

/-- Python default context precision. -/
def PREC : Nat := 28

/-- Drop the last `k` digits of a coefficient, rounding half-to-even (the
default context rounding). -/
def roundHalfEvenCoeff (c k : Nat) : Nat :=
  if k = 0 then c
  else
    let q := c / 10 ^ k
    let r := c % 10 ^ k
    let half := 5 * 10 ^ (k - 1)
    if half < r ∨ (r = half ∧ q % 2 = 1) then q + 1 else q

/-- `Decimal._fix` at unbounded exponent range: round the coefficient to at
most 28 significant digits (half-even); a carry that creates a 29th digit
sheds its trailing zero. -/
def fix (d : PyDecimal) : PyDecimal :=
  if numDigits d.coeff ≤ PREC then d
  else
    let k := numDigits d.coeff - PREC
    let c := roundHalfEvenCoeff d.coeff k
    if PREC < numDigits c then ⟨d.sign, c / 10, d.exp + k + 1⟩
    else ⟨d.sign, c, d.exp + k⟩

/-- `Decimal.__add__`: align to the smaller exponent, add the signed
integer mantissas exactly, then `_fix`.  A zero result is negative exactly
when both operands were negative (`ROUND_HALF_EVEN` context). -/
def add (a b : PyDecimal) : PyDecimal :=
  let e := min a.exp b.exp
  let m1 : Int := (if a.sign then -1 else 1) * a.coeff * 10 ^ (a.exp - e).toNat
  let m2 : Int := (if b.sign then -1 else 1) * b.coeff * 10 ^ (b.exp - e).toNat
  let m := m1 + m2
  let sgn := if m < 0 then true else if 0 < m then false else a.sign && b.sign
  fix ⟨sgn, m.natAbs, e⟩

/-- `copy_negate`. -/
def negDec (d : PyDecimal) : PyDecimal := ⟨!d.sign, d.coeff, d.exp⟩

/-- `Decimal.__sub__` = `self.__add__(other.copy_negate())`. -/
def sub (a b : PyDecimal) : PyDecimal := add a (negDec b)

/-- `Decimal.__mul__`: exact product, then `_fix`. -/
def mul (a b : PyDecimal) : PyDecimal :=
  fix ⟨xor a.sign b.sign, a.coeff * b.coeff, a.exp + b.exp⟩

/-- The `while exp < ideal and coeff % 10 == 0` loop of `__truediv__`'s
exact branch. -/
def stripExactZeros : Nat → Nat → Int → Int → Nat × Int
  | 0, c, e, _ => (c, e)
  | fuel + 1, c, e, ideal =>
    if e < ideal ∧ c % 10 = 0 then stripExactZeros fuel (c / 10) (e + 1) ideal
    else (c, e)

/-- `Decimal.__truediv__` (cpython `_pydecimal`): long-divide to 29
digits; an inexact quotient gets its last digit bumped off a multiple of 5
so that `_fix` rounds correctly; an exact quotient is brought as close to
the ideal exponent as trailing zeros allow.  `none` is the uncaught
`DivisionByZero`/`InvalidOperation` crash on a zero divisor. -/
def divDec (a b : PyDecimal) : Option PyDecimal :=
  if b.coeff = 0 then none
  else if a.coeff = 0 then
    some (fix ⟨xor a.sign b.sign, 0, a.exp - b.exp⟩)
  else
    let sgn := xor a.sign b.sign
    let shift : Int := (numDigits b.coeff : Int) - (numDigits a.coeff : Int) + PREC + 1
    let ideal : Int := a.exp - b.exp
    let qr : Nat × Nat :=
      if 0 ≤ shift then
        ((a.coeff * 10 ^ shift.toNat) / b.coeff, (a.coeff * 10 ^ shift.toNat) % b.coeff)
      else
        (a.coeff / (b.coeff * 10 ^ (-shift).toNat), a.coeff % (b.coeff * 10 ^ (-shift).toNat))
    let e : Int := a.exp - b.exp - shift
    if qr.2 ≠ 0 then
      let c := if qr.1 % 5 = 0 then qr.1 + 1 else qr.1
      some (fix ⟨sgn, c, e⟩)
    else
      let ce := stripExactZeros (numDigits qr.1) qr.1 e ideal
      some (fix ⟨sgn, ce.1, ce.2⟩)

/-- `'%+d'` rendering of an exponent. -/
def signedIntChars (k : Int) : List Char :=
  (if k < 0 then '-' else '+') :: digitChars k.natAbs

/-- `str(Decimal)` (cpython `__str__` for finite values), as characters. -/
def strDec (d : PyDecimal) : List Char :=
  let sgn : List Char := if d.sign then ['-'] else []
  let ds := digitChars d.coeff
  let n : Int := (ds.length : Int)
  let leftdigits : Int := d.exp + n
  let dotplace : Int := if d.exp ≤ 0 ∧ -6 < leftdigits then leftdigits else 1
  let intpart : List Char :=
    if dotplace ≤ 0 then ['0']
    else if n ≤ dotplace then ds ++ List.replicate (dotplace - n).toNat '0'
    else ds.take dotplace.toNat
  let fracpart : List Char :=
    if dotplace ≤ 0 then '.' :: (List.replicate (-dotplace).toNat '0' ++ ds)
    else if n ≤ dotplace then []
    else '.' :: ds.drop dotplace.toNat
  let exppart : List Char :=
    if leftdigits = dotplace then []
    else 'E' :: signedIntChars (leftdigits - dotplace)
  sgn ++ intpart ++ fracpart ++ exppart

/-- `Decimal._rescale(e, ROUND_HALF_EVEN)`: bring the exponent to `e`
exactly (scaling up) or by half-even rounding (scaling down). -/
def rescale (d : PyDecimal) (e : Int) : PyDecimal :=
  if e ≤ d.exp then ⟨d.sign, d.coeff * 10 ^ (d.exp - e).toNat, e⟩
  else ⟨d.sign, roundHalfEvenCoeff d.coeff (e - d.exp).toNat, e⟩

/-- `format(d, ".0{p}f")`: rescale to exponent `-p` (half-even) and render
fixed-point; the sign survives even on a negative zero. -/
def formatFixed (d : PyDecimal) (p : Nat) : List Char :=
  let r := rescale d (-(p : Int))
  let sgn : List Char := if r.sign then ['-'] else []
  let ipart := digitChars (r.coeff / 10 ^ p)
  let fpart : List Char :=
    if p = 0 then []
    else '.' :: (List.replicate (p - numDigits (r.coeff % 10 ^ p)) '0' ++
      digitChars (r.coeff % 10 ^ p))
  sgn ++ ipart ++ fpart

end PyDecimal

/-! ## `SignificantDigits` (`objs/ch_number.py`) -/

/-- The mantissa part `re.split(r"[*×]?[eE]", s)[0]`: everything before the
leftmost exponent marker, an optional `*`/`×` immediately before the
marker belonging to the marker. -/
def isExpMark (c : Char) : Bool := c = 'e' || c = 'E'

def takeBeforeExpMark : List Char → List Char
  | [] => []
  | c :: rest =>
    if isExpMark c then []
    else if (c = '*' || c = '×') &&
        (match rest with
         | r :: _ => isExpMark r
         | [] => false) then []
    else c :: takeBeforeExpMark rest

/-- Python `s.rstrip("0")`. -/
def stripTrail (l : List Char) : List Char :=
  (l.reverse.dropWhile (· = '0')).reverse

/-- Python `s.lstrip("0")`. -/
def stripLead (l : List Char) : List Char := l.dropWhile (· = '0')

/-- `SignificantDigits._parse_significant_digits` on a Python string.
(The code unpacks `s.split(".")` into two parts; every string it is
applied to has at most one dot, which the embedding assumes by splitting
at the first dot.) -/
def parseSigDigits (s : List Char) : Nat :=
  let s := s.filter (· ≠ '_')
  if s.any isExpMark then
    ((takeBeforeExpMark s).filter (· ≠ '.')).length
  else if ¬ s.contains '.' then
    (stripTrail s).length
  else
    let intPart := s.takeWhile (· ≠ '.')
    let decPart := (s.dropWhile (· ≠ '.')).drop 1
    if intPart = ['0'] then (stripLead decPart).length
    else (stripLead intPart).length + decPart.length

/-- `SignificantDigits`: exact decimal value plus declared sig-fig count.
Operands of the arithmetic claims are both `SignificantDigits`, so the
embedding specialises `SupportedNumber` to that case. -/
structure SignificantDigits where
  value : PyDecimal
  sig_fig : Nat
  deriving Repr, DecidableEq

namespace SignificantDigits

/-- `_get_decimal_places` = `-value.as_tuple().exponent`. -/
def dp (d : PyDecimal) : Int := -d.exp

/-- `_get_significant_digits` on a raw `Decimal` re-parses `str(value)`;
on a `SignificantDigits` operand it returns the stored count. -/
def sigOfDecimal (d : PyDecimal) : Nat := parseSigDigits (PyDecimal.strDec d)

/-- `__mul__`: sig-figs from `min(_get_significant_digits(self.value),
_get_significant_digits(other))` — note the left operand's *declared*
count is not consulted; its value string is re-parsed. -/
def mulSD (a b : SignificantDigits) : SignificantDigits :=
  ⟨PyDecimal.mul a.value b.value, min (sigOfDecimal a.value) b.sig_fig⟩

/-- `__truediv__`; `none` is the uncaught zero-division crash. -/
def divSD (a b : SignificantDigits) : Option SignificantDigits :=
  (PyDecimal.divDec a.value b.value).map
    (⟨·, min (sigOfDecimal a.value) b.sig_fig⟩)

/-- `__add__`: `precision = min(dp(self.value), dp(other))`; the result's
count is re-parsed from `f"{result:.0{precision}f}"`.  A negative
precision makes the format spec invalid (`ValueError`), embedded as
`none`. -/
def addSD (a b : SignificantDigits) : Option SignificantDigits :=
  let p : Int := min (dp a.value) (dp b.value)
  if p < 0 then none
  else
    let result := PyDecimal.add a.value b.value
    some ⟨result, parseSigDigits (PyDecimal.formatFixed result p.toNat)⟩

end SignificantDigits

/-! ### Digit-string facts -/

theorem digitChars_eq_digits (n : Nat) (hn : n ≠ 0) :
    digitChars n = (Nat.digits 10 n).reverse.map Nat.digitChar := by
  rw [digitChars, if_neg hn, digitsLE_eq_digits (n + 1) n (Nat.lt_succ_self n)]

theorem mem_digitChars (n : Nat) (ch : Char) (h : ch ∈ digitChars n) :
    ∃ k, k < 10 ∧ ch = Nat.digitChar k := by
  by_cases hn : n = 0
  · subst hn
    have h0 : digitChars 0 = ['0'] := by simp [digitChars]
    rw [h0, List.mem_singleton] at h
    exact ⟨0, by norm_num, h⟩
  · rw [digitChars_eq_digits n hn] at h
    simp only [List.mem_map, List.mem_reverse] at h
    obtain ⟨k, hk, rfl⟩ := h
    exact ⟨k, Nat.digits_lt_base (by norm_num) hk, rfl⟩

theorem digitChar_not_special (k : Nat) (hk : k < 10) :
    Nat.digitChar k ≠ '_' ∧ isExpMark (Nat.digitChar k) = false ∧
      Nat.digitChar k ≠ '.' ∧ Nat.digitChar k ≠ '*' ∧ Nat.digitChar k ≠ '×' := by
  interval_cases k <;> exact ⟨by decide, by decide, by decide, by decide, by decide⟩

theorem digitChar_ne_zero_char (k : Nat) (hk0 : k ≠ 0) (hk : k < 10) :
    Nat.digitChar k ≠ '0' := by
  interval_cases k
  · exact absurd rfl hk0
  all_goals decide

theorem digitChars_ne_nil (n : Nat) : digitChars n ≠ [] := by
  by_cases hn : n = 0
  · subst hn; simp [digitChars]
  · rw [digitChars_eq_digits n hn]
    simp [Nat.digits_ne_nil_iff_ne_zero.mpr hn]

theorem digitChars_head_ne_zero (n : Nat) (hn : n ≠ 0) :
    ∃ ch, (digitChars n).head? = some ch ∧ ch ≠ '0' := by
  rw [digitChars_eq_digits n hn]
  have hne : Nat.digits 10 n ≠ [] := Nat.digits_ne_nil_iff_ne_zero.mpr hn
  refine ⟨Nat.digitChar ((Nat.digits 10 n).getLast hne), ?_, ?_⟩
  · rw [List.head?_map, List.head?_reverse, List.getLast?_eq_getLast _ hne]
    rfl
  · have hmem : (Nat.digits 10 n).getLast hne ∈ Nat.digits 10 n :=
      List.getLast_mem hne
    exact digitChar_ne_zero_char _ (Nat.getLast_digit_ne_zero 10 hn)
      (Nat.digits_lt_base (by norm_num) hmem)

theorem stripLead_digitChars (n : Nat) (hn : n ≠ 0) :
    stripLead (digitChars n) = digitChars n := by
  obtain ⟨ch, hch, hne⟩ := digitChars_head_ne_zero n hn
  cases hl : digitChars n with
  | nil => rfl
  | cons c0 t =>
    rw [hl] at hch
    simp only [List.head?] at hch
    injection hch with hch
    subst hch
    simp [stripLead, List.dropWhile_cons, hne]

theorem digitChars_eq_singleton_zero_iff (n : Nat) :
    digitChars n = ['0'] ↔ n = 0 := by
  constructor
  · intro h
    by_contra hn
    obtain ⟨ch, hch, hne⟩ := digitChars_head_ne_zero n hn
    rw [h] at hch
    simp only [List.head?] at hch
    injection hch with hch
    exact hne hch.symm
  · intro h; subst h; simp [digitChars]

theorem numDigits_le_of_lt_pow (m p : Nat) (hp : 1 ≤ p) (h : m < 10 ^ p) :
    numDigits m ≤ p := by
  by_cases hm : m = 0
  · subst hm
    simpa [numDigits, digitChars] using hp
  · rw [numDigits, digitChars_eq_digits m hm]
    simp only [List.length_map, List.length_reverse]
    rw [Nat.digits_len 10 m (by norm_num) hm]
    have := (Nat.lt_pow_iff_log_lt (by norm_num) hm).mp h
    omega

theorem takeWhile_sat_append (p : Char → Bool) :
    ∀ (l r : List Char), (∀ x ∈ l, p x = true) →
      (l ++ r).takeWhile p = l ++ r.takeWhile p ∧
      (l ++ r).dropWhile p = r.dropWhile p := by
  intro l
  induction l with
  | nil => intro r _; simp
  | cons c t ih =>
    intro r hall
    have hc := hall c (List.mem_cons_self _ _)
    have := ih r (fun x hx => hall x (List.mem_cons_of_mem _ hx))
    simp [List.takeWhile_cons, List.dropWhile_cons, hc, this.1, this.2]

/-- A non-negative value renders without a sign: quotient digits, then the
point and the zero-padded remainder digits (absent at precision 0). -/
theorem formatFixed_eq_of_sign_false (d : PyDecimal) (p : Nat)
    (hsign : d.sign = false) :
    PyDecimal.formatFixed d p =
      digitChars ((d.rescale (-(p : Int))).coeff / 10 ^ p) ++
        (if p = 0 then []
         else '.' ::
           (List.replicate (p - numDigits ((d.rescale (-(p : Int))).coeff % 10 ^ p)) '0' ++
            digitChars ((d.rescale (-(p : Int))).coeff % 10 ^ p))) := by
  have hrs : (d.rescale (-(p : Int))).sign = false := by
    unfold PyDecimal.rescale
    split <;> exact hsign
  simp only [PyDecimal.formatFixed, hrs]
  simp

/-- Every character of a non-negative fixed-point rendering is a digit or
the decimal point. -/
theorem formatFixed_chars (d : PyDecimal) (p : Nat) (hsign : d.sign = false)
    (ch : Char) (h : ch ∈ PyDecimal.formatFixed d p) :
    ch = '.' ∨ ∃ k, k < 10 ∧ ch = Nat.digitChar k := by
  rw [formatFixed_eq_of_sign_false d p hsign] at h
  rcases List.mem_append.mp h with hq | h2
  · exact Or.inr (mem_digitChars _ ch hq)
  · by_cases hp : p = 0
    · rw [if_pos hp] at h2; simp at h2
    · rw [if_neg hp] at h2
      rcases List.mem_cons.mp h2 with rfl | h3
      · exact Or.inl rfl
      · rcases List.mem_append.mp h3 with h4 | h5
        · have := List.eq_of_mem_replicate h4
          subst this
          exact Or.inr ⟨0, by norm_num, by decide⟩
        · exact Or.inr (mem_digitChars _ ch h5)

theorem contains_iff_mem (l : List Char) (c : Char) :
    l.contains c = true ↔ c ∈ l := by
  simp [List.contains]

/-- Re-parsing the fixed-point rendering of a non-negative decimal counts
exactly the digits of the rescaled coefficient. -/
theorem parse_formatFixed (d : PyDecimal) (p : Nat) (hsign : d.sign = false) :
    parseSigDigits (PyDecimal.formatFixed d p) =
      (if p = 0 then
        (stripTrail (digitChars ((d.rescale (-(p : Int))).coeff))).length
       else if (d.rescale (-(p : Int))).coeff < 10 ^ p then
        (if (d.rescale (-(p : Int))).coeff = 0 then 0
         else numDigits ((d.rescale (-(p : Int))).coeff))
       else numDigits (((d.rescale (-(p : Int))).coeff) / 10 ^ p) + p) := by
  have hfmt := formatFixed_eq_of_sign_false d p hsign
  set c := (d.rescale (-(p : Int))).coeff with hc
  have hnospecial : ∀ ch ∈ PyDecimal.formatFixed d p,
      ch ≠ '_' ∧ isExpMark ch = false := by
    intro ch hch
    rcases formatFixed_chars d p hsign ch hch with rfl | ⟨k, hk, rfl⟩
    · exact ⟨by decide, by decide⟩
    · obtain ⟨h1, h2, _, _, _⟩ := digitChar_not_special k hk
      exact ⟨h1, h2⟩
  have hfilter : (PyDecimal.formatFixed d p).filter (· ≠ '_') =
      PyDecimal.formatFixed d p :=
    List.filter_eq_self.mpr (fun a ha => by simp [(hnospecial a ha).1])
  have hany : (PyDecimal.formatFixed d p).any isExpMark = false := by
    rw [List.any_eq_false]
    intro a ha
    simp [(hnospecial a ha).2]
  by_cases hp : p = 0
  · subst hp
    have hshape : PyDecimal.formatFixed d 0 = digitChars c := by
      rw [hfmt]
      simp
    rw [hshape] at hfilter hany
    have hnodot : '.' ∉ digitChars c := by
      intro hcont
      obtain ⟨k, hk, he⟩ := mem_digitChars c '.' hcont
      exact (digitChar_not_special k hk).2.2.1 he.symm
    simp only [parseSigDigits]
    rw [hshape, hfilter]
    rw [if_neg (by simp [hany]), if_pos (by simp [hnodot])]
    simp
  · have hppos : 1 ≤ p := Nat.one_le_iff_ne_zero.mpr hp
    set q := c / 10 ^ p with hq
    set m := c % 10 ^ p with hm
    have hpowpos : 0 < 10 ^ p := Nat.pos_pow_of_pos p (by norm_num)
    have hmlt : m < 10 ^ p := Nat.mod_lt _ hpowpos
    have hmle : numDigits m ≤ p := numDigits_le_of_lt_pow m p hppos hmlt
    have hshape : PyDecimal.formatFixed d p =
        digitChars q ++ '.' ::
          (List.replicate (p - numDigits m) '0' ++ digitChars m) := by
      rw [hfmt, if_neg hp]
    have hdigit_pred : ∀ x ∈ digitChars q, (decide (x ≠ '.')) = true := by
      intro x hx
      obtain ⟨k, hk, rfl⟩ := mem_digitChars q x hx
      simp [(digitChar_not_special k hk).2.2.1]
    have htw := takeWhile_sat_append (fun x => decide (x ≠ '.')) (digitChars q)
      ('.' :: (List.replicate (p - numDigits m) '0' ++ digitChars m)) hdigit_pred
    have hcontains : '.' ∈ PyDecimal.formatFixed d p := by
      rw [hshape]
      exact List.mem_append_right _ (List.mem_cons_self _ _)
    have hint : (PyDecimal.formatFixed d p).takeWhile (· ≠ '.') = digitChars q := by
      rw [hshape, htw.1]
      simp [List.takeWhile_cons]
    have hdec : ((PyDecimal.formatFixed d p).dropWhile (· ≠ '.')).drop 1 =
        List.replicate (p - numDigits m) '0' ++ digitChars m := by
      rw [hshape, htw.2]
      simp [List.dropWhile_cons]
    simp only [parseSigDigits]
    rw [hfilter]
    rw [if_neg (by simp [hany]), if_neg (by simp [hcontains])]
    rw [hint, hdec, if_neg hp]
    by_cases hclt : c < 10 ^ p
    · have hq0 : q = 0 := by
        rw [hq]
        exact Nat.div_eq_of_lt hclt
      have hmc : m = c := by
        rw [hm]
        exact Nat.mod_eq_of_lt hclt
      rw [if_pos (by rw [hq0]; simp [digitChars]), if_pos hclt]
      by_cases hc0 : c = 0
      · rw [if_pos hc0]
        have hall : ∀ x ∈ List.replicate (p - numDigits m) '0' ++ digitChars m,
            (decide (x = '0')) = true := by
          intro x hx
          rcases List.mem_append.mp hx with h4 | h5
          · simp [List.eq_of_mem_replicate h4]
          · rw [hmc, hc0] at h5
            have h0 : digitChars 0 = ['0'] := by simp [digitChars]
            rw [h0, List.mem_singleton] at h5
            simp [h5]
        rw [stripLead, List.dropWhile_eq_nil_iff.mpr hall]
        rfl
      · rw [if_neg hc0]
        have hm0 : m ≠ 0 := by rw [hmc]; exact hc0
        have hpad : ∀ x ∈ List.replicate (p - numDigits m) '0',
            (decide (x = '0')) = true := by
          intro x hx
          simp [List.eq_of_mem_replicate hx]
        have hdw := takeWhile_sat_append (fun x => decide (x = '0'))
          (List.replicate (p - numDigits m) '0') (digitChars m) hpad
        rw [stripLead, hdw.2]
        have hsl := stripLead_digitChars m hm0
        rw [stripLead] at hsl
        rw [hsl, hmc]
        rfl
    · have hq0 : q ≠ 0 := by
        rw [hq]
        have hle : 10 ^ p ≤ c := Nat.le_of_not_lt hclt
        exact Nat.ne_of_gt (Nat.div_pos hle hpowpos)
      rw [if_neg (fun he => hq0 ((digitChars_eq_singleton_zero_iff q).mp he)),
        if_neg hclt]
      rw [stripLead_digitChars q hq0]
      simp only [List.length_append, List.length_replicate]
      have hnm : (digitChars m).length = numDigits m := rfl
      have hnq : (digitChars q).length = numDigits q := rfl
      omega

/-- **C2 counterexample.**  The claim `(a*b).sig_fig = min(a.sig_fig,
b.sig_fig)` fails: `__mul__` re-parses the *left* operand's sig-figs from
`str(self.value)` instead of using the declared count.  With
`a = SignificantDigits(Decimal("100"), 3)` and
`b = SignificantDigits(Decimal("2"), 5)` the product carries
`min(parse("100"), 5) = 1` sig-figs, not `min(3, 5) = 3`. -/
theorem sig_mul_claim_refuted :
    (SignificantDigits.mulSD ⟨⟨false, 100, 0⟩, 3⟩ ⟨⟨false, 2, 0⟩, 5⟩).sig_fig ≠
      min (⟨⟨false, 100, 0⟩, 3⟩ : SignificantDigits).sig_fig
        (⟨⟨false, 2, 0⟩, 5⟩ : SignificantDigits).sig_fig := by
  decide

/-- **C2 (amended).**  When the left operand's declared count agrees with
the count re-parsed from its value string (as it does for every
`SignificantDigits` built from a plain literal), product and quotient do
keep `min(a.sig_fig, b.sig_fig)`; in general the left position uses the
re-parsed count. -/
theorem sig_mul_div_min_sig (a b : SignificantDigits)
    (ha : SignificantDigits.sigOfDecimal a.value = a.sig_fig) :
    (SignificantDigits.mulSD a b).sig_fig = min a.sig_fig b.sig_fig ∧
      ∀ r, SignificantDigits.divSD a b = some r →
        r.sig_fig = min a.sig_fig b.sig_fig := by
  constructor
  · simp [SignificantDigits.mulSD, ha]
  · intro r hr
    simp only [SignificantDigits.divSD, Option.map_eq_some'] at hr
    obtain ⟨d, _, rfl⟩ := hr
    simp [ha]

theorem sig_mul_div_min_sig_witness :
    (SignificantDigits.mulSD ⟨⟨false, 15, -1⟩, 2⟩ ⟨⟨false, 25, -1⟩, 2⟩).sig_fig =
        min (⟨⟨false, 15, -1⟩, 2⟩ : SignificantDigits).sig_fig
          (⟨⟨false, 25, -1⟩, 2⟩ : SignificantDigits).sig_fig ∧
      ∀ r, SignificantDigits.divSD ⟨⟨false, 15, -1⟩, 2⟩ ⟨⟨false, 25, -1⟩, 2⟩ =
          some r →
        r.sig_fig = min (⟨⟨false, 15, -1⟩, 2⟩ : SignificantDigits).sig_fig
          (⟨⟨false, 25, -1⟩, 2⟩ : SignificantDigits).sig_fig :=
  sig_mul_div_min_sig ⟨⟨false, 15, -1⟩, 2⟩ ⟨⟨false, 25, -1⟩, 2⟩ (by decide)

/-- **C3 counterexample.**  The claim `(a+b).sig_fig = min(a.dp, b.dp)`
fails: with `a = SignificantDigits("1.2")` (dp 1) and
`b = SignificantDigits("3.43")` (dp 2) the sum 4.63 is formatted at 1
decimal place as "4.6", which re-parses to **2** sig-figs, not
`min(1, 2) = 1`. -/
theorem sig_add_claim_refuted :
    SignificantDigits.addSD ⟨⟨false, 12, -1⟩, 2⟩ ⟨⟨false, 343, -2⟩, 3⟩ =
        some ⟨⟨false, 463, -2⟩, 2⟩ ∧
      (2 : Int) ≠ min (SignificantDigits.dp ⟨false, 12, -1⟩)
        (SignificantDigits.dp ⟨false, 343, -2⟩) := by
  constructor
  · decide
  · decide

/-- **C3 (amended).**  `a + b` takes `p = min(a.dp, b.dp)` and re-parses
the sum formatted at `p` decimal places.  For a non-negative sum and
non-negative `p`, with `c` the coefficient of the sum rescaled to `p`
places: `p = 0` gives the digit count of `c` with trailing zeros dropped;
`c < 10^p` gives the digit count of `c` (0 when `c = 0`, rendering "NA");
otherwise the digit count of `c / 10^p` plus `p`. -/
theorem sig_add_reparse (a b : SignificantDigits)
    (hp : 0 ≤ min (SignificantDigits.dp a.value) (SignificantDigits.dp b.value))
    (hsign : (PyDecimal.add a.value b.value).sign = false) :
    ∃ r, SignificantDigits.addSD a b = some r ∧
      r.sig_fig =
        (if (min (SignificantDigits.dp a.value)
            (SignificantDigits.dp b.value)).toNat = 0 then
          (stripTrail (digitChars (((PyDecimal.add a.value b.value).rescale
            (-((min (SignificantDigits.dp a.value)
                (SignificantDigits.dp b.value)).toNat : Int))).coeff))).length
         else if ((PyDecimal.add a.value b.value).rescale
            (-((min (SignificantDigits.dp a.value)
                (SignificantDigits.dp b.value)).toNat : Int))).coeff <
              10 ^ (min (SignificantDigits.dp a.value)
                (SignificantDigits.dp b.value)).toNat then
          (if ((PyDecimal.add a.value b.value).rescale
              (-((min (SignificantDigits.dp a.value)
                  (SignificantDigits.dp b.value)).toNat : Int))).coeff = 0 then 0
           else numDigits (((PyDecimal.add a.value b.value).rescale
              (-((min (SignificantDigits.dp a.value)
                  (SignificantDigits.dp b.value)).toNat : Int))).coeff))
         else numDigits ((((PyDecimal.add a.value b.value).rescale
            (-((min (SignificantDigits.dp a.value)
                (SignificantDigits.dp b.value)).toNat : Int))).coeff) /
              10 ^ (min (SignificantDigits.dp a.value)
                (SignificantDigits.dp b.value)).toNat) +
            (min (SignificantDigits.dp a.value)
              (SignificantDigits.dp b.value)).toNat) := by
  refine ⟨⟨PyDecimal.add a.value b.value,
    parseSigDigits (PyDecimal.formatFixed (PyDecimal.add a.value b.value)
      (min (SignificantDigits.dp a.value)
        (SignificantDigits.dp b.value)).toNat)⟩, ?_, ?_⟩
  · simp only [SignificantDigits.addSD]
    rw [if_neg (not_lt.mpr hp)]
  · exact parse_formatFixed (PyDecimal.add a.value b.value) _ hsign

theorem sig_add_reparse_witness :
    ∃ r, SignificantDigits.addSD ⟨⟨false, 12, -1⟩, 2⟩ ⟨⟨false, 343, -2⟩, 3⟩ =
        some r ∧
      r.sig_fig =
        (if (min (SignificantDigits.dp (⟨false, 12, -1⟩ : PyDecimal))
            (SignificantDigits.dp ⟨false, 343, -2⟩)).toNat = 0 then
          (stripTrail (digitChars (((PyDecimal.add ⟨false, 12, -1⟩
            ⟨false, 343, -2⟩).rescale
            (-((min (SignificantDigits.dp (⟨false, 12, -1⟩ : PyDecimal))
                (SignificantDigits.dp ⟨false, 343, -2⟩)).toNat : Int))).coeff))).length
         else if ((PyDecimal.add ⟨false, 12, -1⟩ ⟨false, 343, -2⟩).rescale
            (-((min (SignificantDigits.dp (⟨false, 12, -1⟩ : PyDecimal))
                (SignificantDigits.dp ⟨false, 343, -2⟩)).toNat : Int))).coeff <
              10 ^ (min (SignificantDigits.dp (⟨false, 12, -1⟩ : PyDecimal))
                (SignificantDigits.dp ⟨false, 343, -2⟩)).toNat then
          (if ((PyDecimal.add ⟨false, 12, -1⟩ ⟨false, 343, -2⟩).rescale
              (-((min (SignificantDigits.dp (⟨false, 12, -1⟩ : PyDecimal))
                  (SignificantDigits.dp ⟨false, 343, -2⟩)).toNat : Int))).coeff = 0
           then 0
           else numDigits (((PyDecimal.add ⟨false, 12, -1⟩
              ⟨false, 343, -2⟩).rescale
              (-((min (SignificantDigits.dp (⟨false, 12, -1⟩ : PyDecimal))
                  (SignificantDigits.dp ⟨false, 343, -2⟩)).toNat : Int))).coeff))
         else numDigits ((((PyDecimal.add ⟨false, 12, -1⟩
            ⟨false, 343, -2⟩).rescale
            (-((min (SignificantDigits.dp (⟨false, 12, -1⟩ : PyDecimal))
                (SignificantDigits.dp ⟨false, 343, -2⟩)).toNat : Int))).coeff) /
              10 ^ (min (SignificantDigits.dp (⟨false, 12, -1⟩ : PyDecimal))
                (SignificantDigits.dp ⟨false, 343, -2⟩)).toNat) +
            (min (SignificantDigits.dp (⟨false, 12, -1⟩ : PyDecimal))
              (SignificantDigits.dp ⟨false, 343, -2⟩)).toNat) :=
  sig_add_reparse ⟨⟨false, 12, -1⟩, 2⟩ ⟨⟨false, 343, -2⟩, 3⟩ (by decide) (by decide)

/-! ## Chemistry value model (`objs/ch_chemistry.py`) — reaction balancing

`count_dict`, the element matrix, and `Reaction.balanced`.  The
`EvalDecimal` numbers are already-evaluated rationals.  The sympy call
`solve_linear_system` is an external library: its output (a map from
solved variables to linear expressions in the free variables) is an
explicit input `sol`, and the two theorems take as hypotheses exactly the
documented behaviour of the solver — its output parametrises solutions of
the augmented system (`SolvesReaction`) and solved variables are expressed
in free variables only (`wfSol`). -/

inductive CHTerm where
  | elem (symbol : String) (number : ℚ)
  | sub (terms : List CHTerm) (number : ℚ)

mutual

/-- Contribution of one term to `count_dict[E]`: an `Element` adds its
`number`; a `CHPartialFormula` adds `count * term.number` for each inner
symbol. -/
def CHTerm.countOf (E : String) : CHTerm → ℚ
  | .elem s n => if s = E then n else 0
  | .sub ts n => n * countTerms E ts
termination_by structural t => t

/-- `count_dict.get(E, 0)` over an ordered term list. -/
def countTerms (E : String) : List CHTerm → ℚ
  | [] => 0
  | t :: ts => CHTerm.countOf E t + countTerms E ts
termination_by structural ts => ts

end

mutual

/-- The symbols inserted into `count_dict` (keys may carry count 0). -/
def CHTerm.keys : CHTerm → List String
  | .elem s _ => [s]
  | .sub ts _ => keysTerms ts
termination_by structural t => t

def keysTerms : List CHTerm → List String
  | [] => []
  | t :: ts => CHTerm.keys t ++ keysTerms ts
termination_by structural ts => ts

end

/-- `CHFormula(terms, number, charge)`.  `count_dict` does not factor in
the formula's own `number` (the stoichiometric coefficient). -/
structure CHFormula where
  terms : List CHTerm
  number : ℚ
  charge : ℚ

/-- `CHFormula.count(E) = count_dict.get(E, 0)`. -/
def CHFormula.count (f : CHFormula) (E : String) : ℚ := countTerms E f.terms

/-- A `Reaction` (the `to` token is diagnostics only). -/
structure Reaction where
  reactants : List CHFormula
  products : List CHFormula

def numVars (r : Reaction) : Nat := (r.reactants ++ r.products).length

/-- `set(chain(*count_dicts))`: the element symbols of the reaction. -/
def elementsOf (r : Reaction) : List String :=
  (((r.reactants ++ r.products).map (fun f => keysTerms f.terms)).flatten).dedup

/-- `sympy.Integer(count)` goes through `int()`, truncating toward 0. -/
def ratTrunc (q : ℚ) : ℤ := q.num.tdiv q.den

/-- One row of the balancing matrix: reactant counts, negated product
counts, and the augmenting zero. -/
def matrixRow (r : Reaction) (E : String) : List ℤ :=
  r.reactants.map (fun f => ratTrunc (f.count E)) ++
    r.products.map (fun f => -(ratTrunc (f.count E))) ++ [0]

/-- A linear expression `c + Σ aₖ·xₖ`, the shape of a `solve_linear_system`
value. -/
structure LinExpr where
  c : ℚ
  a : List ℚ
  deriving Repr, DecidableEq

/-- `Σ zₖ·σ(i+k)` over an integer row. -/
def dotI : List ℤ → Nat → (Nat → ℚ) → ℚ
  | [], _, _ => 0
  | z :: rest, i, σ => (z : ℚ) * σ i + dotI rest (i + 1) σ

/-- `Σ aₖ·σ(i+k)` over rational coefficients. -/
def dotA : List ℚ → Nat → (Nat → ℚ) → ℚ
  | [], _, _ => 0
  | q :: rest, i, σ => q * σ i + dotA rest (i + 1) σ

def evalLin (σ : Nat → ℚ) (e : LinExpr) : ℚ := e.c + dotA e.a 0 σ

/-- `result.get(variable, variable)`: a solved variable's expression, or
the variable itself. -/
def exprOf (sol : List (Option LinExpr)) (n j : Nat) : LinExpr :=
  match sol[j]? with
  | some (some e) => e
  | _ => ⟨0, (List.range n).map (fun k => if k = j then 1 else 0)⟩

/-- A valuation agreeing with the solution map. -/
def Consistent (sol : List (Option LinExpr)) (n : Nat) (σ : Nat → ℚ) : Prop :=
  ∀ j, j < n → σ j = evalLin σ (exprOf sol n j)

/-- Documented behaviour of `solve_linear_system` on the reaction's
augmented matrix: any valuation consistent with the returned map satisfies
every row of the system. -/
def SolvesReaction (r : Reaction) (sol : List (Option LinExpr)) : Prop :=
  ∀ σ : Nat → ℚ, Consistent sol (numVars r) σ →
    ∀ E ∈ elementsOf r, dotI (matrixRow r E) 0 σ = 0

/-- Structural well-formedness of the solver output: one entry per
variable, coefficient vectors of full length, and solved variables
expressed in free variables only. -/
def wfSol (sol : List (Option LinExpr)) (n : Nat) : Bool :=
  (sol.length = n : Bool) &&
    sol.all (fun oe =>
      match oe with
      | none => true
      | some e =>
        (e.a.length = n : Bool) &&
          (List.range n).all (fun k =>
            (e.a.getD k 0 = 0 : Bool) || (sol.getD k (some ⟨0, []⟩) = none : Bool)))

/-- `fraction(x)[1]` of a linear expression with rational coefficients:
the common denominator. -/
def denomLin (e : LinExpr) : Nat :=
  e.a.foldr (fun q acc => Nat.lcm q.den acc) e.c.den

/-- `lcm(*map(lambda x: int(fraction(x)[1]), result.values()))`. -/
def lcmDenoms (sol : List (Option LinExpr)) : Nat :=
  sol.foldr
    (fun oe acc =>
      match oe with
      | some e => Nat.lcm (denomLin e) acc
      | none => acc) 1

/-- `expr.subs(variables[-1], L)` followed by `Decimal(str(·))`: numeric
only when no variable other than the last occurs. -/
def substLast (n : Nat) (L : ℚ) (e : LinExpr) : Option ℚ :=
  if (e.a.take (n - 1)).all (· = 0) then some (e.c + e.a.getD (n - 1) 0 * L)
  else none

def substList (sol : List (Option LinExpr)) (n : Nat) (L : ℚ) :
    List Nat → Option (List ℚ)
  | [] => some []
  | j :: js =>
    match substLast n L (exprOf sol n j), substList sol n L js with
    | some v, some vs => some (v :: vs)
    | _, _ => none

/-- The substituted stoichiometric coefficients of `Reaction.balanced`;
`none` covers the `InvalidOperation` → "Can not balance" path (a symbolic
or fractional value reaching `Decimal(str(number))`). -/
def balancedCoeffs (r : Reaction) (sol : List (Option LinExpr)) :
    Option (List ℤ) :=
  let n := numVars r
  let L : ℚ := (lcmDenoms sol : ℚ)
  match substList sol n L (List.range n) with
  | none => none
  | some vals =>
    if vals.all (fun q => q.den = 1) then some (vals.map Rat.num) else none

/-- The balanced `Reaction`: original terms, coefficients as the new
`number`s (charge defaults to 0 as in `CHFormula(terms, number)`). -/
def balancedReaction (r : Reaction) (sol : List (Option LinExpr)) :
    Option Reaction :=
  (balancedCoeffs r sol).map fun cs =>
    ⟨(r.reactants.zip (cs.take r.reactants.length)).map
        (fun p => ⟨p.1.terms, (p.2 : ℚ), 0⟩),
      (r.products.zip (cs.drop r.reactants.length)).map
        (fun p => ⟨p.1.terms, (p.2 : ℚ), 0⟩)⟩

/-- `Σ number·count_dict[E]` over one side of a reaction. -/
def conserveSum (fs : List CHFormula) (E : String) : ℚ :=
  (fs.map (fun f => f.number * f.count E)).sum

/-! ### Balancing lemmas -/

theorem wfSol_length {sol : List (Option LinExpr)} {n : Nat}
    (h : wfSol sol n = true) : sol.length = n := by
  unfold wfSol at h
  rw [Bool.and_eq_true] at h
  exact of_decide_eq_true h.1

theorem wfSol_expr {sol : List (Option LinExpr)} {n j : Nat} {e : LinExpr}
    (h : wfSol sol n = true) (hj : sol[j]? = some (some e)) :
    e.a.length = n ∧ ∀ k, k < n → e.a.getD k 0 ≠ 0 → sol[k]? = some none := by
  unfold wfSol at h
  rw [Bool.and_eq_true] at h
  have hlen := of_decide_eq_true h.1
  have hmem : some e ∈ sol := by
    have := List.getElem?_eq_some.mp hj
    exact this.2 ▸ List.getElem_mem this.1
  have hall := List.all_eq_true.mp h.2 (some e) hmem
  simp only [Bool.and_eq_true] at hall
  refine ⟨of_decide_eq_true hall.1, ?_⟩
  intro k hk hke
  have hk2 := List.all_eq_true.mp hall.2 k (List.mem_range.mpr hk)
  rw [Bool.or_eq_true] at hk2
  rcases hk2 with hz | hfree
  · exact absurd (of_decide_eq_true hz) hke
  · have hgd := of_decide_eq_true hfree
    rw [List.getD_eq_getElem?_getD] at hgd
    cases hsk : sol[k]? with
    | none =>
      have : k < sol.length := hlen ▸ hk
      rw [List.getElem?_eq_none_iff] at hsk
      omega
    | some x =>
      rw [hsk] at hgd
      simp at hgd
      rw [hgd]

theorem substList_spec (sol : List (Option LinExpr)) (n : Nat) (L : ℚ) :
    ∀ (js : List Nat) (vals : List ℚ),
      substList sol n L js = some vals →
      vals.length = js.length ∧
        ∀ (i j : Nat), js[i]? = some j →
          ∃ v, vals[i]? = some v ∧ substLast n L (exprOf sol n j) = some v := by
  intro js
  induction js with
  | nil =>
    intro vals h
    simp only [substList, Option.some.injEq] at h
    subst h
    refine ⟨rfl, ?_⟩
    intro i j hij
    simp at hij
  | cons j0 js ih =>
    intro vals h
    unfold substList at h
    cases hs : substLast n L (exprOf sol n j0) with
    | none => rw [hs] at h; simp at h
    | some v0 =>
      rw [hs] at h
      cases hrest : substList sol n L js with
      | none => rw [hrest] at h; simp at h
      | some vs =>
        rw [hrest] at h
        simp only [Option.some.injEq] at h
        subst h
        obtain ⟨hlen, hspec⟩ := ih vs hrest
        refine ⟨by simp [hlen], ?_⟩
        intro i j hij
        cases i with
        | zero =>
          simp only [List.getElem?_cons_zero, Option.some.injEq] at hij
          subst hij
          exact ⟨v0, by simp, hs⟩
        | succ i =>
          simp only [List.getElem?_cons_succ] at hij
          obtain ⟨v, hv1, hv2⟩ := hspec i j hij
          exact ⟨v, by simpa using hv1, hv2⟩

theorem dotA_single (σ : Nat → ℚ) :
    ∀ (m : Nat) (l : List ℚ) (i : Nat), l.length = m + 1 →
      (l.take m).all (· = 0) = true →
      dotA l i σ = l.getD m 0 * σ (i + m) := by
  intro m
  induction m with
  | zero =>
    intro l i hlen _
    match l, hlen with
    | [x], _ => simp [dotA]
  | succ m ih =>
    intro l i hlen hall
    match l, hlen with
    | x :: rest, hlen =>
      simp only [List.take_succ_cons, List.all_cons, Bool.and_eq_true] at hall
      have hx : x = 0 := of_decide_eq_true hall.1
      have hr := ih rest (i + 1) (by simpa using hlen) hall.2
      simp only [dotA, hx, List.getD_cons_succ, hr]
      have hidx : i + 1 + m = i + (m + 1) := by omega
      rw [hidx]
      ring

theorem dotI_append (σ : Nat → ℚ) :
    ∀ (l1 l2 : List ℤ) (i : Nat),
      dotI (l1 ++ l2) i σ = dotI l1 i σ + dotI l2 (i + l1.length) σ := by
  intro l1
  induction l1 with
  | nil => intro l2 i; simp [dotI]
  | cons z rest ih =>
    intro l2 i
    simp only [List.cons_append, dotI, List.length_cons, List.append_eq]
    rw [ih l2 (i + 1)]
    have hidx : i + 1 + rest.length = i + (rest.length + 1) := by omega
    rw [hidx]
    ring

theorem dotI_neg (σ : Nat → ℚ) :
    ∀ (l : List ℤ) (i : Nat), dotI (l.map (fun z => -z)) i σ = -dotI l i σ := by
  intro l
  induction l with
  | nil => intro i; simp [dotI]
  | cons z rest ih =>
    intro i
    simp only [List.map_cons, dotI, ih]
    push_cast
    ring

theorem ratTrunc_cast {q : ℚ} (h : q.den = 1) : ((ratTrunc q : ℤ) : ℚ) = q := by
  rw [ratTrunc, h]
  simp only [Nat.cast_one, Int.tdiv_one]
  exact (Rat.den_eq_one_iff q).mp h

theorem dotI_counts (E : String) (σ : Nat → ℚ) :
    ∀ (fs : List CHFormula) (zs : List ℤ) (i : Nat),
      fs.length = zs.length →
      (∀ k, k < fs.length → σ (i + k) = ((zs.getD k 0 : ℤ) : ℚ)) →
      (∀ f ∈ fs, ((ratTrunc (f.count E) : ℤ) : ℚ) = f.count E) →
      dotI (fs.map (fun f => ratTrunc (f.count E))) i σ =
        ((fs.zip zs).map (fun p => (p.2 : ℚ) * p.1.count E)).sum := by
  intro fs
  induction fs with
  | nil => intro zs i _ _ _; simp [dotI]
  | cons f rest ih =>
    intro zs i hlen hσ hint
    match zs, hlen with
    | z :: zrest, hlen =>
      have h0 : σ i = (z : ℚ) := by
        have := hσ 0 (by simp)
        simpa using this
      have hrest := ih zrest (i + 1) (by simpa using hlen)
        (fun k hk => by
          have h1 := hσ (k + 1) (by simpa using Nat.succ_lt_succ hk)
          have h2 : i + (k + 1) = i + 1 + k := by omega
          rw [h2] at h1
          simpa using h1)
        (fun g hg => hint g (List.mem_cons_of_mem _ hg))
      simp only [List.map_cons, dotI, List.zip_cons_cons, List.sum_cons]
      rw [h0, hint f (List.mem_cons_self _ _), hrest]
      ring

mutual

theorem CHTerm.countOf_eq_zero (E : String) :
    ∀ t : CHTerm, E ∉ CHTerm.keys t → CHTerm.countOf E t = 0
  | .elem s n, h => by
    simp only [CHTerm.keys, List.mem_singleton] at h
    simp only [CHTerm.countOf]
    rw [if_neg (fun he => h he.symm)]
  | .sub ts n, h => by
    simp only [CHTerm.keys] at h
    simp [CHTerm.countOf, countTerms_eq_zero E ts h]

theorem countTerms_eq_zero (E : String) :
    ∀ ts : List CHTerm, E ∉ keysTerms ts → countTerms E ts = 0
  | [], _ => by simp [countTerms]
  | t :: ts, h => by
    simp only [keysTerms, List.mem_append] at h
    push_neg at h
    simp [countTerms, CHTerm.countOf_eq_zero E t h.1, countTerms_eq_zero E ts h.2]

end

theorem mem_of_getElem?_q {α : Type} {l : List α} {k : Nat} {a : α}
    (h : l[k]? = some a) : a ∈ l := by
  have hx := List.getElem?_eq_some.mp h
  exact hx.2 ▸ List.getElem_mem hx.1

theorem onehot_getD (n j k : Nat) (hk : k < n) :
    ((List.range n).map (fun i => if i = j then (1 : ℚ) else 0)).getD k 0 =
      if k = j then 1 else 0 := by
  rw [List.getD_eq_getElem?_getD, List.getElem?_map, List.getElem?_range hk]
  rfl

theorem onehot_take_all (n j : Nat) (hj : n - 1 ≤ j) :
    (((List.range n).map (fun i => if i = j then (1 : ℚ) else 0)).take
      (n - 1)).all (· = 0) = true := by
  rw [← List.map_take, List.take_range]
  rw [List.all_eq_true]
  intro x hx
  obtain ⟨k, hk, rfl⟩ := List.mem_map.mp hx
  rw [List.mem_range] at hk
  have : k ≠ j := by omega
  simp [this]

theorem substLast_onehot_last (n : Nat) (L : ℚ) (hn : 1 ≤ n) :
    substLast n L
      ⟨0, (List.range n).map (fun k => if k = n - 1 then (1 : ℚ) else 0)⟩ =
      some L := by
  unfold substLast
  rw [if_pos (onehot_take_all n (n - 1) (Nat.le_refl _))]
  rw [onehot_getD n (n - 1) (n - 1) (by omega)]
  simp

theorem substLast_onehot_free (n j : Nat) (L v : ℚ) (hj : j < n)
    (h : substLast n L
      ⟨0, (List.range n).map (fun k => if k = j then (1 : ℚ) else 0)⟩ =
        some v) :
    j = n - 1 ∧ v = L := by
  by_cases hj' : j = n - 1
  · subst hj'
    rw [substLast_onehot_last n L (by omega)] at h
    exact ⟨rfl, (Option.some.injEq _ _ ▸ h).symm⟩
  · exfalso
    have hjlt : j < n - 1 := by omega
    unfold substLast at h
    have hmem : (1 : ℚ) ∈
        (((List.range n).map (fun i => if i = j then (1 : ℚ) else 0)).take
          (n - 1)) := by
      rw [← List.map_take, List.take_range]
      refine List.mem_map.mpr ⟨j, ?_, by simp⟩
      rw [List.mem_range]
      omega
    by_cases htk : ((((List.range n).map
        (fun i => if i = j then (1 : ℚ) else 0)).take (n - 1)).all (· = 0)) = true
    · have := List.all_eq_true.mp htk (1 : ℚ) hmem
      simp at this
    · rw [if_neg (by simpa using htk)] at h
      simp at h

theorem conserveSum_mk (fs : List CHFormula) (zs : List ℤ) (E : String) :
    conserveSum ((fs.zip zs).map
      (fun p => (⟨p.1.terms, (p.2 : ℚ), 0⟩ : CHFormula))) E =
      ((fs.zip zs).map (fun p => (p.2 : ℚ) * p.1.count E)).sum := by
  unfold conserveSum
  rw [List.map_map]
  rfl

/-- **C1 (amended).**  For any solver output that parametrises the
solution set of the reaction's augmented element matrix (`SolvesReaction`,
the documented behaviour of `solve_linear_system`) and is structurally
well-formed (`wfSol`: one entry per variable, solved variables written in
free variables only), if `Reaction.balanced` succeeds and every element
count in the reaction is an integer, then the balanced reaction conserves
every element and every stoichiometric coefficient is an integer.  The
coefficients need not be positive — see the counterexample. -/
theorem reaction_balanced_conserves (r : Reaction) (sol : List (Option LinExpr))
    (hsolve : SolvesReaction r sol)
    (hwf : wfSol sol (numVars r) = true)
    (hcounts : ∀ f ∈ r.reactants ++ r.products, ∀ E, (f.count E).den = 1)
    (br : Reaction) (hbr : balancedReaction r sol = some br) :
    (∀ E, conserveSum br.reactants E = conserveSum br.products E) ∧
      ∀ f ∈ br.reactants ++ br.products, ∃ z : ℤ, f.number = (z : ℚ) := by
  simp only [balancedReaction, Option.map_eq_some'] at hbr
  obtain ⟨cs, hcs, hbr'⟩ := hbr
  simp only [balancedCoeffs] at hcs
  cases hsub : substList sol (numVars r) ((lcmDenoms sol : ℚ)) (List.range (numVars r)) with
  | none => rw [hsub] at hcs; simp at hcs
  | some vals =>
    rw [hsub] at hcs
    dsimp only [] at hcs
    by_cases hdens : vals.all (fun q => q.den = 1)
    swap
    · rw [if_neg hdens] at hcs; simp at hcs
    rw [if_pos hdens] at hcs
    simp only [Option.some.injEq] at hcs
    subst hcs
    obtain ⟨hvlen, hvspec⟩ :=
      substList_spec sol (numVars r) ((lcmDenoms sol : ℚ)) (List.range (numVars r)) vals hsub
    rw [List.length_range] at hvlen
    have hlen_sol : sol.length = numVars r := wfSol_length hwf
    -- the valuation built by the substitution
    have hσval : ∀ j, j < numVars r → ∃ v, vals[j]? = some v ∧
        vals.getD j 0 = v ∧
        substLast (numVars r) ((lcmDenoms sol : ℚ)) (exprOf sol (numVars r) j) = some v := by
      intro j hj
      obtain ⟨v, hv1, hv2⟩ := hvspec j j (List.getElem?_range hj)
      exact ⟨v, hv1, by rw [List.getD_eq_getElem?_getD, hv1]; rfl, hv2⟩
    have hconsist : Consistent sol (numVars r) (fun k => vals.getD k 0) := by
      intro j hj
      obtain ⟨v, hvj, hσj, hsubj⟩ := hσval j hj
      have hnpos : 1 ≤ numVars r := by omega
      cases hsol_j : sol[j]? with
      | none =>
        rw [List.getElem?_eq_none_iff] at hsol_j
        omega
      | some oe =>
        cases oe with
        | none =>
          have hexpr : exprOf sol (numVars r) j =
              ⟨0, (List.range (numVars r)).map (fun k => if k = j then 1 else 0)⟩ := by
            unfold exprOf
            rw [hsol_j]
          rw [hexpr] at hsubj
          obtain ⟨hjn, hvL⟩ := substLast_onehot_free (numVars r) j _ v hj hsubj
          subst hjn
          rw [hexpr, evalLin]
          rw [dotA_single _ (numVars r - 1) _ 0 (by simp; omega)
            (onehot_take_all (numVars r) (numVars r - 1) (Nat.le_refl _))]
          rw [onehot_getD (numVars r) (numVars r - 1) (numVars r - 1) (by omega)]
          simp [hσj, hvL]
        | some e =>
          have hexpr : exprOf sol (numVars r) j = e := by
            unfold exprOf
            rw [hsol_j]
          obtain ⟨halen, hfree⟩ := wfSol_expr hwf hsol_j
          rw [hexpr] at hsubj ⊢
          unfold substLast at hsubj
          by_cases htk : ((e.a.take (numVars r - 1)).all (· = 0)) = true
          swap
          · rw [if_neg (by simpa using htk)] at hsubj; simp at hsubj
          rw [if_pos htk] at hsubj
          simp only [Option.some.injEq] at hsubj
          rw [evalLin, dotA_single _ (numVars r - 1) e.a 0 (by omega) htk]
          simp only [Nat.zero_add]
          rw [hσj, ← hsubj]
          by_cases ha : e.a.getD (numVars r - 1) 0 = 0
          · rw [ha]; ring
          · have hsfree := hfree (numVars r - 1) (by omega) ha
            obtain ⟨v', hv'j, hσ', hsub'⟩ := hσval (numVars r - 1) (by omega)
            have hexpr' : exprOf sol (numVars r) (numVars r - 1) =
                ⟨0, (List.range (numVars r)).map
                  (fun k => if k = numVars r - 1 then 1 else 0)⟩ := by
              unfold exprOf
              rw [hsfree]
            rw [hexpr', substLast_onehot_last (numVars r) _ hnpos] at hsub'
            simp only [Option.some.injEq] at hsub'
            rw [hσ', ← hsub']
    -- values are the integer coefficients
    have hcast : ∀ k, k < numVars r →
        (((vals.map Rat.num).getD k 0 : ℤ) : ℚ) = vals.getD k 0 := by
      intro k hk
      have hklen : k < vals.length := by omega
      have hvk : vals[k]? = some vals[k] := List.getElem?_eq_getElem hklen
      have hden : vals[k].den = 1 := by
        have := List.all_eq_true.mp hdens vals[k] (mem_of_getElem?_q hvk)
        exact of_decide_eq_true this
      rw [List.getD_eq_getElem?_getD, List.getElem?_map, hvk,
        List.getD_eq_getElem?_getD, hvk]
      simp only [Option.map_some', Option.getD_some]
      exact (Rat.den_eq_one_iff _).mp hden
    have hm : r.reactants.length + r.products.length = numVars r := by
      simp [numVars]
    have hcslen : (vals.map Rat.num).length = numVars r := by
      simpa using hvlen
    constructor
    · intro E
      subst hbr'
      rw [conserveSum_mk, conserveSum_mk]
      by_cases hE : E ∈ elementsOf r
      · have hrow := hsolve (fun k => vals.getD k 0) hconsist E hE
        unfold matrixRow at hrow
        rw [dotI_append, dotI_append] at hrow
        simp only [dotI, List.length_map, Int.cast_zero, zero_mul, add_zero] at hrow
        have hneg : r.products.map (fun f => -(ratTrunc (f.count E))) =
            (r.products.map (fun f => ratTrunc (f.count E))).map (fun z => -z) := by
          rw [List.map_map]
          rfl
        rw [hneg, dotI_neg, Nat.zero_add] at hrow
        have hreact := dotI_counts E (fun k => vals.getD k 0) r.reactants
          ((vals.map Rat.num).take r.reactants.length) 0
          (by rw [List.length_take]; omega)
          (fun k hk => by
            rw [Nat.zero_add, List.getD_eq_getElem?_getD]
            rw [List.getElem?_take, if_pos hk, ← List.getD_eq_getElem?_getD]
            exact (hcast k (by omega)).symm)
          (fun f hf => ratTrunc_cast
            (hcounts f (List.mem_append_left _ hf) E))
        have hprod := dotI_counts E (fun k => vals.getD k 0) r.products
          ((vals.map Rat.num).drop r.reactants.length) r.reactants.length
          (by rw [List.length_drop]; omega)
          (fun k hk => by
            rw [List.getD_eq_getElem?_getD, List.getElem?_drop,
              ← List.getD_eq_getElem?_getD]
            exact (hcast (r.reactants.length + k) (by omega)).symm)
          (fun f hf => ratTrunc_cast
            (hcounts f (List.mem_append_right _ hf) E))
        rw [hreact, hprod] at hrow
        linarith
      · have hzero : ∀ f ∈ r.reactants ++ r.products, f.count E = 0 := by
          intro f hf
          apply countTerms_eq_zero
          intro hkey
          apply hE
          unfold elementsOf
          exact List.mem_dedup.mpr (List.mem_flatten.mpr
            ⟨keysTerms f.terms, List.mem_map.mpr ⟨f, hf, rfl⟩, hkey⟩)
        rw [List.sum_eq_zero, List.sum_eq_zero]
        · intro x hx
          obtain ⟨p, hp, rfl⟩ := List.mem_map.mp hx
          rw [hzero p.1 (List.mem_append_right _ (List.of_mem_zip hp).1)]
          ring
        · intro x hx
          obtain ⟨p, hp, rfl⟩ := List.mem_map.mp hx
          rw [hzero p.1 (List.mem_append_left _ (List.of_mem_zip hp).1)]
          ring
    · subst hbr'
      intro f hf
      rcases List.mem_append.mp hf with hf1 | hf2
      · obtain ⟨p, _, rfl⟩ := List.mem_map.mp hf1
        exact ⟨p.2, rfl⟩
      · obtain ⟨p, _, rfl⟩ := List.mem_map.mp hf2
        exact ⟨p.2, rfl⟩

/-- `H₁.₅ → H₃` (subscripts may be any decimal: the scanner parses
`H_1.5`).  sympy sees the truncated matrix `[1, -3 | 0]` and solves
`x₀ = 3·x₁`. -/
def rxnFracH : Reaction :=
  ⟨[⟨[CHTerm.elem "H" (3 / 2 : ℚ)], 1, 0⟩], [⟨[CHTerm.elem "H" 3], 1, 0⟩]⟩

def solFracH : List (Option LinExpr) := [some ⟨0, [0, 3]⟩, none]

/-- `H₂ + HCl → Cl₂`: rows `H: [2, 1, 0 | 0]`, `Cl: [0, 1, -2 | 0]`,
solved as `x₀ = -x₂`, `x₁ = 2·x₂`. -/
def rxnHHCl : Reaction :=
  ⟨[⟨[CHTerm.elem "H" 2], 1, 0⟩,
    ⟨[CHTerm.elem "H" 1, CHTerm.elem "Cl" 1], 1, 0⟩],
   [⟨[CHTerm.elem "Cl" 2], 1, 0⟩]⟩

def solHHCl : List (Option LinExpr) :=
  [some ⟨0, [0, 0, -1]⟩, some ⟨0, [0, 0, 2]⟩, none]

/-- **C1 counterexample.**  Two failures of the claim as stated.
(a) `Reaction.balanced` feeds `sympy.Integer(count)`, truncating the
fractional count 1.5 to 1: balancing `H₁.₅ → H₃` "succeeds" with
coefficients 3 and 1, but `3·1.5 = 4.5 ≠ 1·3`, so the element H is not
conserved.  (b) balancing `H₂ + HCl → Cl₂` succeeds with coefficient
vector `[-1, 2, 1]` — stoichiometric coefficients need not be positive. -/
theorem reaction_balanced_claim_refuted :
    (SolvesReaction rxnFracH solFracH ∧
      wfSol solFracH (numVars rxnFracH) = true ∧
      (balancedReaction rxnFracH solFracH).map
        (fun br => (conserveSum br.reactants "H", conserveSum br.products "H")) =
        some (9 / 2, 3) ∧ ((9 : ℚ) / 2) ≠ 3) ∧
    (SolvesReaction rxnHHCl solHHCl ∧
      wfSol solHHCl (numVars rxnHHCl) = true ∧
      balancedCoeffs rxnHHCl solHHCl = some [-1, 2, 1] ∧ ¬ (0 < (-1 : ℤ))) := by
  refine ⟨⟨?_, by with_unfolding_all decide, by with_unfolding_all decide,
      by norm_num⟩,
    ⟨?_, by with_unfolding_all decide, by with_unfolding_all decide,
      by norm_num⟩⟩
  · intro σ hcons E hE
    have hel : elementsOf rxnFracH = ["H"] := by decide
    rw [hel] at hE
    have hE' : E = "H" := by simpa using hE
    subst hE'
    have h0 := hcons 0 (by decide)
    have hexpr0 : exprOf solFracH (numVars rxnFracH) 0 = ⟨0, [0, 3]⟩ := rfl
    rw [hexpr0] at h0
    simp only [evalLin, dotA] at h0
    have hrow : matrixRow rxnFracH "H" = [1, -3, 0] := by with_unfolding_all decide
    rw [hrow]
    simp only [dotI]
    push_cast
    push_cast at h0
    linarith
  · intro σ hcons E hE
    have h0 := hcons 0 (by decide)
    have h1 := hcons 1 (by decide)
    have hexpr0 : exprOf solHHCl (numVars rxnHHCl) 0 = ⟨0, [0, 0, -1]⟩ := rfl
    have hexpr1 : exprOf solHHCl (numVars rxnHHCl) 1 = ⟨0, [0, 0, 2]⟩ := rfl
    rw [hexpr0] at h0
    rw [hexpr1] at h1
    simp only [evalLin, dotA] at h0 h1
    have hel : elementsOf rxnHHCl = ["H", "Cl"] := by decide
    rw [hel] at hE
    have hE' : E = "H" ∨ E = "Cl" := by simpa using hE
    push_cast at h0 h1
    rcases hE' with rfl | rfl
    · have hrow : matrixRow rxnHHCl "H" = [2, 1, 0, 0] := by with_unfolding_all decide
      rw [hrow]
      simp only [dotI]
      push_cast
      linarith
    · have hrow : matrixRow rxnHHCl "Cl" = [0, 1, -2, 0] := by with_unfolding_all decide
      rw [hrow]
      simp only [dotI]
      push_cast
      linarith

/-- `H₂ + O₂ → H₂O`: rows `H: [2, 0, -2 | 0]`, `O: [0, 2, -1 | 0]`,
solved as `x₀ = x₂`, `x₁ = x₂/2`; the lcm of denominators is 2 and the
balanced coefficients are `[2, 1, 2]`. -/
def rxnWater : Reaction :=
  ⟨[⟨[CHTerm.elem "H" 2], 1, 0⟩, ⟨[CHTerm.elem "O" 2], 1, 0⟩],
   [⟨[CHTerm.elem "H" 2, CHTerm.elem "O" 1], 1, 0⟩]⟩

def solWater : List (Option LinExpr) :=
  [some ⟨0, [0, 0, 1]⟩, some ⟨0, [0, 0, 1 / 2]⟩, none]

theorem reaction_balanced_conserves_witness :
    (∀ E, conserveSum
        (⟨[⟨[CHTerm.elem "H" 2], 2, 0⟩, ⟨[CHTerm.elem "O" 2], 1, 0⟩],
          [⟨[CHTerm.elem "H" 2, CHTerm.elem "O" 1], 2, 0⟩]⟩ : Reaction).reactants E =
      conserveSum
        (⟨[⟨[CHTerm.elem "H" 2], 2, 0⟩, ⟨[CHTerm.elem "O" 2], 1, 0⟩],
          [⟨[CHTerm.elem "H" 2, CHTerm.elem "O" 1], 2, 0⟩]⟩ : Reaction).products E) ∧
      ∀ f ∈ (⟨[⟨[CHTerm.elem "H" 2], 2, 0⟩, ⟨[CHTerm.elem "O" 2], 1, 0⟩],
          [⟨[CHTerm.elem "H" 2, CHTerm.elem "O" 1], 2, 0⟩]⟩ : Reaction).reactants ++
        (⟨[⟨[CHTerm.elem "H" 2], 2, 0⟩, ⟨[CHTerm.elem "O" 2], 1, 0⟩],
          [⟨[CHTerm.elem "H" 2, CHTerm.elem "O" 1], 2, 0⟩]⟩ : Reaction).products,
        ∃ z : ℤ, f.number = (z : ℚ) := by
  refine reaction_balanced_conserves rxnWater solWater ?_
    (by with_unfolding_all decide) ?_ _ ?_
  · intro σ hcons E hE
    have h0 := hcons 0 (by decide)
    have h1 := hcons 1 (by decide)
    have hexpr0 : exprOf solWater (numVars rxnWater) 0 = ⟨0, [0, 0, 1]⟩ := rfl
    have hexpr1 : exprOf solWater (numVars rxnWater) 1 = ⟨0, [0, 0, 1 / 2]⟩ := rfl
    rw [hexpr0] at h0
    rw [hexpr1] at h1
    simp only [evalLin, dotA] at h0 h1
    have hel : elementsOf rxnWater = ["H", "O"] := by decide
    rw [hel] at hE
    have hE' : E = "H" ∨ E = "O" := by simpa using hE
    rcases hE' with rfl | rfl
    · have hrow : matrixRow rxnWater "H" = [2, 0, -2, 0] := by with_unfolding_all decide
      rw [hrow]
      simp only [dotI]
      push_cast
      linarith
    · have hrow : matrixRow rxnWater "O" = [0, 2, -1, 0] := by with_unfolding_all decide
      rw [hrow]
      simp only [dotI]
      push_cast
      linarith
  · intro f hf E
    fin_cases hf <;>
      · simp only [CHFormula.count, countTerms, CHTerm.countOf, add_zero]
        split_ifs <;> with_unfolding_all decide
  · with_unfolding_all rfl

/-! ## Quantity layer (`objs/ch_quantity.py`) and interpreter handlers
(`ch_interpreter.py`)

`pint` units are external; only identity with `ureg.dimensionless`
matters in the embedded fragment, so units are a small inductive.  A
`CHQuantity` holds an optional formula, a `CHNumber`
(= `SignificantDigits`) magnitude, and a unit.  Python exceptions are
modelled with `Except PyExc`. -/

inductive PyExc where
  | typeError
  | attributeError
  | chError (msg : String)
  deriving Repr, DecidableEq

inductive PintUnit where
  | dimensionless
  | gram
  | mole
  | named (s : String)
  deriving Repr, DecidableEq

structure CHQuantityV where
  formula : Option String
  magnitude : SignificantDigits
  unit : PintUnit
  deriving Repr, DecidableEq

/-- `int(m)` for a `CHNumber` magnitude.  `SignificantDigits`
(objs/ch_number.py) is a plain class: it defines none of `__int__`,
`__index__`, `__trunc__` and does not subclass `Decimal`, so CPython's
`int()` raises `TypeError`. -/
def intCHNumber (_m : SignificantDigits) : Except PyExc Int :=
  .error .typeError

/-- Rational value of a `PyDecimal` (used only in the dead ε-check of
`__pow__`). -/
def ratOfDec (d : PyDecimal) : ℚ :=
  (if d.sign then -1 else 1) * (d.coeff : ℚ) * (10 : ℚ) ^ d.exp

/-- The running `result` of `__pow__`: the Python int `1` it starts from,
or a quantity after `result *= self`. -/
inductive PowRes where
  | intOne
  | qty (q : CHQuantityV)
  deriving Repr, DecidableEq

/-- `result = 1; for _ in range(n): result *= self`. -/
def powLoop (mulQ : PowRes → CHQuantityV → PowRes) (self : CHQuantityV) :
    Nat → PowRes
  | 0 => .intOne
  | n + 1 => mulQ (powLoop mulQ self n) self

/-- `CHQuantity.__pow__` (objs/ch_quantity.py 173–182), with the exponent
`other` already coerced by `ensure_quantity` (which returns a quantity
unchanged).  `mulQ` stands for `result * self`
(`CHQuantity.__mul__`/`__rmul__`, settled separately); it is never
reached, because `int(other.magnitude)` raises first. -/
def qtyPow (mulQ : PowRes → CHQuantityV → PowRes)
    (self other : CHQuantityV) : Except PyExc PowRes :=
  if ¬ (other.unit = .dimensionless) then
    .error (.chError "Cannot raise to power")
  else
    match intCHNumber other.magnitude with
    | .error e => .error e
    | .ok i =>
      if (i : ℚ) - ratOfDec other.magnitude.value ≥ 1 / 10000 then
        .error (.chError "Cannot raise to power magnitude")
      else
        match intCHNumber other.magnitude with
        | .error e => .error e
        | .ok n => .ok (powLoop mulQ self n.toNat)

/-- A value reaching one of the `math` wrappers of `init_global_env`:
either a `CHQuantity`, or the bare `CHNumber` that `arg.magnitude`
yields. -/
inductive MathArg where
  | qty (q : CHQuantityV)
  | num (m : SignificantDigits)
  deriving Repr, DecidableEq

/-- Attribute read `arg.formula`: `CHQuantity` has the attribute,
`SignificantDigits` does not (`AttributeError`). -/
def argFormula : MathArg → Except PyExc (Option String)
  | .qty q => .ok q.formula
  | .num _ => .error .attributeError

/-- Attribute read `arg.unit`. -/
def argUnit : MathArg → Except PyExc PintUnit
  | .qty q => .ok q.unit
  | .num _ => .error .attributeError

/-- `func(arg)` for a CPython `math` function: such functions convert the
argument with `__float__`.  `SignificantDigits` defines no `__float__`
(`TypeError`); `CHQuantity.__float__` first checks the unit and then
calls `float(self.magnitude)`, which again has no `__float__`. -/
def mathApply : MathArg → Except PyExc SignificantDigits
  | .num _ => .error .typeError
  | .qty q =>
    if q.unit = .dimensionless then .error .typeError
    else .error (.chError "Cannot convert to float")

/-- The closure `decorator` produced by `wrap_fn`
(ch_interpreter.py 65–71), applied to one argument: if the argument is a
quantity it is REPLACED by its magnitude, then
`CHQuantity(arg.formula, func(arg), arg.unit)` evaluates its arguments
left to right. -/
def wrap_fn (arg0 : MathArg) : Except PyExc CHQuantityV := do
  let arg := match arg0 with
    | .qty q => MathArg.num q.magnitude
    | a => a
  let f ← argFormula arg
  let m ← mathApply arg
  let u ← argUnit arg
  .ok ⟨f, m, u⟩

/-- `self.env[key]`: `Env` (ch_env.py 6–56) defines no `__getitem__`, so
subscripting an environment raises
`TypeError: 'Env' object is not subscriptable`. -/
def envGetItem {V : Type} (_h : Heap V) (_selfIdx : Nat) (_key : String) :
    Except PyExc V :=
  .error .typeError

/-- The reaction loop of `Interpreter._eval_conversion`
(ch_interpreter.py 238–243): for each reaction take `rxn.balanced`
(which raises "Can not balance" exactly when substitution fails, our
`none`), then read `self.env["show_balanced_equation"]`, print the
balanced reaction when the flag is truthy, and merge the balanced
reaction's context.  Accumulates (context sources, printed reactions). -/
def convLoop {V : Type} (truthyV : V → Bool) (h : Heap V) (selfIdx : Nat) :
    List (Reaction × List (Option LinExpr)) → List Reaction → List Reaction →
      Except PyExc (List Reaction × List Reaction)
  | [], ctx, out => .ok (ctx, out)
  | (r, sol) :: rest, ctx, out =>
    match balancedReaction r sol with
    | none => .error (.chError "Can not balance")
    | some br =>
      match envGetItem h selfIdx "show_balanced_equation" with
      | .error e => .error e
      | .ok flag =>
        convLoop truthyV h selfIdx rest (ctx ++ [br])
          (if truthyV flag then out ++ [br] else out)

/-- `Interpreter._eval_conversion` (236–247).  `toFn` is
`self.evaluate(node.value).to(unit, context)` — the value evaluation and
the pint conversion, external to this handler — fed with the merged
context sources.  Returns the conversion result and the printed
reactions. -/
def _eval_conversion {V R : Type} (truthyV : V → Bool)
    (toFn : List Reaction → Except PyExc R) (h : Heap V) (selfIdx : Nat)
    (rxns : List (Reaction × List (Option LinExpr))) :
    Except PyExc (R × List Reaction) :=
  match convLoop truthyV h selfIdx rxns [] [] with
  | .error e => .error e
  | .ok (ctx, out) =>
    match toFn ctx with
    | .error e => .error e
    | .ok res => .ok (res, out)

/-- Interpreter values reaching `_eval_interval`/`_eval_binary`. -/
inductive IVal where
  | qty (q : CHQuantityV)
  | str (s : String)
  deriving Repr, DecidableEq

def isQty : IVal → Bool
  | .qty _ => true
  | .str _ => false

/-- Attribute read `x.unit` (a `str` has none). -/
def ivalUnit : IVal → Except PyExc PintUnit
  | .qty q => .ok q.unit
  | .str _ => .error .attributeError

/-- Attribute read `x.formula`. -/
def ivalFormula : IVal → Except PyExc (Option String)
  | .qty q => .ok q.formula
  | .str _ => .error .attributeError

/-- Attribute read `x.magnitude`. -/
def ivalMagnitude : IVal → Except PyExc SignificantDigits
  | .qty q => .ok q.magnitude
  | .str _ => .error .attributeError

/-- `Decimal(i)` for a Python int `i`. -/
def decOfInt (i : Int) : PyDecimal := ⟨i < 0, i.natAbs, 0⟩

/-- `Interpreter._eval_interval` (222–234) on the two already-evaluated
endpoints.  `addQ` is `start + end` (dunder dispatch with pint inside,
external).  Note the guard is the source's
`not isinstance(start, CHQuantity) and isinstance(end, CHQuantity)` —
`not` binds only to the first conjunct.  The generator expression's
`range(int(start.magnitude), int(end.magnitude))` is evaluated eagerly
when the generator object is created, inside the handler. -/
def _eval_interval (addQ : IVal → IVal → Except PyExc IVal)
    (start end_ : IVal) : Except PyExc (List CHQuantityV) :=
  if isQty start = false ∧ isQty end_ = true then
    .error (.chError "start and end must be CHQuantity")
  else
    match addQ start end_ with
    | .error e => .error e
    | .ok tmp =>
      match ivalUnit tmp with
      | .error e => .error e
      | .ok unit =>
        match ivalFormula tmp with
        | .error e => .error e
        | .ok formula =>
          match ivalMagnitude start with
          | .error e => .error e
          | .ok ms =>
            match intCHNumber ms with
            | .error e => .error e
            | .ok lo =>
              match ivalMagnitude end_ with
              | .error e => .error e
              | .ok me =>
                match intCHNumber me with
                | .error e => .error e
                | .ok hi =>
                  .ok ((List.range (hi - lo).toNat).map (fun k =>
                    let d := decOfInt (lo + k)
                    ⟨formula, ⟨d, SignificantDigits.sigOfDecimal d⟩, unit⟩))

/-- The binary operators of `_eval_binary`. -/
inductive BinTok where
  | ADD | SUB | MUL | DIV | MOD | CARET | MULMUL
  | LE | LT | GE | GT | EQEQ | NOEQ | AND | OR
  deriving Repr, DecidableEq

/-- Python truthiness of interpreter values: `CHQuantity.__bool__` is
`bool(self.magnitude)`, and `SignificantDigits` defines no `__bool__` or
`__len__`, so a quantity is always truthy; a `str` is truthy iff
nonempty. -/
def truthy : IVal → Bool
  | .qty _ => true
  | .str s => !s.isEmpty

/-- `Interpreter._eval_binary` (294–330): both operands are evaluated
unconditionally first (lines 296–297); `evalL`/`evalR` are
`self.evaluate` on the two child nodes, as state transformers over an
abstract interpreter state.  `applyOp` covers the
arithmetic/comparison arms (dunder dispatch, settled separately); the
`and`/`or` arms are Python's value-returning `left and right` /
`left or right`. -/
def _eval_binary {St : Type}
    (applyOp : BinTok → IVal → IVal → Except PyExc IVal)
    (evalL evalR : St → Except PyExc (IVal × St)) (op : BinTok) (s : St) :
    Except PyExc (IVal × St) :=
  match evalL s with
  | .error e => .error e
  | .ok (left, s1) =>
    match evalR s1 with
    | .error e => .error e
    | .ok (right, s2) =>
      match op with
      | .AND => .ok ((if truthy left then right else left), s2)
      | .OR => .ok ((if truthy left then left else right), s2)
      | o =>
        match applyOp o left right with
        | .error e => .error e
        | .ok v => .ok (v, s2)

/-! ### C4–C7, C10: theorems -/

/-- **C7.** `CHQuantity.__pow__` never returns: for a non-dimensionless
exponent it raises the handler error, and for a dimensionless exponent
`int(other.magnitude)` raises `TypeError` before the ε-check and the
product loop — there is no succeeding case at all, refuting the claimed
"raises iff ... ; when it succeeds it returns the n-fold product". -/
theorem qty_pow_never_succeeds (mulQ : PowRes → CHQuantityV → PowRes)
    (self other : CHQuantityV) :
    qtyPow mulQ self other =
      .error (if other.unit = .dimensionless then PyExc.typeError
        else .chError "Cannot raise to power") := by
  unfold qtyPow intCHNumber
  by_cases h : other.unit = .dimensionless <;> simp [h]

/-- **C5.** Each `math` wrapper seeded by `init_global_env` raises
`AttributeError` on every argument: `wrap_fn`'s closure overwrites `arg`
with `arg.magnitude` (a `CHNumber`) when given a quantity, then reads
`arg.formula`, which `SignificantDigits` does not have.  It never
returns the claimed quantity. -/
theorem wrap_fn_attribute_error (arg : MathArg) :
    wrap_fn arg = .error .attributeError := by
  cases arg <;> rfl

/-- **C4.** `_eval_conversion` with at least one attached reaction whose
balancing succeeds always raises `TypeError`: `Env` has no
`__getitem__`, so `self.env["show_balanced_equation"]` fails before any
printing, context merging, or conversion — refuting both the
flag-controlled printing and the claim that a falsy flag lets the
conversion complete without raising. -/
theorem eval_conversion_subscript_type_error {V R : Type}
    (truthyV : V → Bool) (toFn : List Reaction → Except PyExc R)
    (h : Heap V) (selfIdx : Nat) (r : Reaction)
    (sol : List (Option LinExpr))
    (rest : List (Reaction × List (Option LinExpr))) (br : Reaction)
    (hb : balancedReaction r sol = some br) :
    _eval_conversion truthyV toFn h selfIdx ((r, sol) :: rest) =
      .error PyExc.typeError := by
  unfold _eval_conversion convLoop
  rw [hb]
  rfl

def rxnConvW : Reaction :=
  ⟨[⟨[CHTerm.elem "H" 2], 1, 0⟩], [⟨[CHTerm.elem "H" 2], 1, 0⟩]⟩

def solConvW : List (Option LinExpr) := [some ⟨0, [0, 1]⟩, none]

theorem eval_conversion_subscript_type_error_witness :
    _eval_conversion (fun b : Bool => b) (fun _ => Except.ok ())
        ([] : Heap Bool) 0 [(rxnConvW, solConvW)] =
      .error PyExc.typeError :=
  eval_conversion_subscript_type_error (fun b : Bool => b)
    (fun _ => Except.ok ()) ([] : Heap Bool) 0 rxnConvW solConvW []
    ⟨[⟨[CHTerm.elem "H" 2], (1 : ℚ), 0⟩], [⟨[CHTerm.elem "H" 2], (1 : ℚ), 0⟩]⟩
    (by with_unfolding_all rfl)

/-- **C6.** With both endpoints quantities (so the — inverted — guard
passes) and `start + end` returning a quantity as `CHQuantity.__add__`
does, `_eval_interval` still raises `TypeError`:
`range(int(start.magnitude), ...)` calls `int()` on a
`SignificantDigits`, which has no `__int__`.  The claimed sequence of
quantities is never produced. -/
theorem eval_interval_type_error (addQ : IVal → IVal → Except PyExc IVal)
    (q1 q2 tq : CHQuantityV)
    (hadd : addQ (IVal.qty q1) (IVal.qty q2) = .ok (.qty tq)) :
    _eval_interval addQ (.qty q1) (.qty q2) = .error PyExc.typeError := by
  unfold _eval_interval
  rw [if_neg (by simp [isQty]), hadd]
  rfl

def qtyW : CHQuantityV := ⟨none, ⟨⟨false, 1, 0⟩, 1⟩, .dimensionless⟩

theorem eval_interval_type_error_witness :
    _eval_interval (fun _ _ => .ok (.qty qtyW)) (.qty qtyW) (.qty qtyW) =
      .error PyExc.typeError :=
  eval_interval_type_error (fun _ _ => .ok (.qty qtyW)) qtyW qtyW qtyW rfl

/-- **C10.** For `&&`/`||` the interpreter evaluates both operands
unconditionally — the final state is the one after running the right
operand on the left operand's post-state — and the produced value is one
of the two operand values unchanged: for `&&` the left operand when it
is falsy, otherwise the right; for `||` the left when truthy, otherwise
the right.  No boolean coercion is applied. -/
theorem eval_binary_and_or {St : Type}
    (applyOp : BinTok → IVal → IVal → Except PyExc IVal)
    (evalL evalR : St → Except PyExc (IVal × St)) (op : BinTok) (s : St)
    (l : IVal) (s1 : St) (r : IVal) (s2 : St)
    (hop : op = BinTok.AND ∨ op = BinTok.OR)
    (hL : evalL s = .ok (l, s1)) (hR : evalR s1 = .ok (r, s2)) :
    ∃ v, _eval_binary applyOp evalL evalR op s = .ok (v, s2) ∧
      (v = l ∨ v = r) ∧
      (op = BinTok.AND → v = if truthy l then r else l) ∧
      (op = BinTok.OR → v = if truthy l then l else r) := by
  rcases hop with rfl | rfl
  · refine ⟨if truthy l then r else l, ?_, ?_, fun _ => rfl,
      fun hc => absurd hc (by decide)⟩
    · simp only [_eval_binary, hL, hR]
    · by_cases ht : truthy l <;> simp [ht]
  · refine ⟨if truthy l then l else r, ?_, ?_,
      fun hc => absurd hc (by decide), fun _ => rfl⟩
    · simp only [_eval_binary, hL, hR]
    · by_cases ht : truthy l <;> simp [ht]

theorem eval_binary_and_or_witness :
    ∃ v, @_eval_binary (List String)
        (fun _ _ _ => .error (.chError "unused"))
        (fun s => .ok (.str "lv", s ++ ["L"]))
        (fun s => .ok (.str "", s ++ ["R"])) BinTok.OR [] =
        .ok (v, ["L", "R"]) ∧
      (v = .str "lv" ∨ v = .str "") ∧
      (BinTok.OR = BinTok.AND → v = if truthy (.str "lv") then .str "" else .str "lv") ∧
      (BinTok.OR = BinTok.OR → v = if truthy (.str "lv") then .str "lv" else .str "") :=
  eval_binary_and_or (fun _ _ _ => .error (.chError "unused"))
    (fun s => .ok (.str "lv", s ++ ["L"]))
    (fun s => .ok (.str "", s ++ ["R"])) BinTok.OR [] (.str "lv") ["L"]
    (.str "") ["L", "R"] (Or.inr rfl) rfl rfl

/-! ## Scanner (`ch_scanner.py`)

A control-flow-faithful embedding of `Scanner`.  Token values never
influence which token types are appended (the single inspection is
`self.tokens[-1].type == TokenType.DOC`), so the token list carries
`TokenType`s only; `TokenType` is a string-valued enum, so members
created by value — `TokenType(prev)`, `TokenType(identifier)` — are
`TokT.op s`.  The periodic table (a data file) and pint's registry
(`identifier in ureg`, external) enter as parameters `ptable`/`isUnit`.
`handler.error` only records an error and RETURNS it, so scanning
continues; a `none` result is an uncaught Python exception (or exhausted
fuel). -/

inductive TokT where
  | op (s : String)
  | NUM | FORMULA | ID | UNIT | PATH | STR | SEP | INTERVAL
  | AND | OR | MUL | MULMUL | MULMULEQ
  | INDENT | DEDENT | EOF
  deriving Repr, DecidableEq

structure ScanSt where
  input : List Char
  current : Nat
  start : Nat
  line : Nat
  start_of_line : Bool
  indent_stack : List Nat
  tokens : List TokT
  deriving Repr, DecidableEq

/-- `self.end`. -/
def endS (s : ScanSt) : Bool := s.input.length ≤ s.current

/-- `self.previous` (the empty string is `none`). -/
def previousS (s : ScanSt) : Option Char :=
  if 0 < s.current then s.input[s.current - 1]? else none

/-- `self.peek` (the empty string at end is `none`). -/
def peekS (s : ScanSt) : Option Char :=
  if endS s then none else s.input[s.current]?

/-- `self.advance()`. -/
def advanceS (s : ScanSt) : Option Char × ScanSt :=
  if endS s then (none, s)
  else (s.input[s.current]?, { s with current := s.current + 1 })

/-- `self.match(*char)`.  `char` may contain the empty string (`none`):
at end of input `self.peek in char` then still holds, `current` is
bumped past the end and the falsy `""` is returned. -/
def matchS (chars : List (Option Char)) (s : ScanSt) :
    Option Char × ScanSt :=
  if peekS s ∈ chars then (peekS s, { s with current := s.current + 1 })
  else (none, s)

/-- `self.proceed()`. -/
def proceedS (s : ScanSt) : ScanSt := { s with start := s.current }

/-- `self.add_token(t, ...)`. -/
def addTok (t : TokT) (s : ScanSt) : ScanSt :=
  { s with tokens := s.tokens ++ [t] }

/-- `between(predicate=p)`: consume while `p(peek)` and not at end,
bumping `line` at each consumed newline. -/
def runPred (p : Char → Bool) (s : ScanSt) : ScanSt :=
  let consumed := (s.input.drop s.current).takeWhile p
  { s with current := s.current + consumed.length,
           line := s.line + (consumed.filter (fun c => c = '\n')).length }

/-- The raw `while self.peek != c and not self.end: self.advance()` loop
of `script` (no line bookkeeping). -/
def runPredNL (p : Char → Bool) (s : ScanSt) : ScanSt :=
  { s with current := s.current + ((s.input.drop s.current).takeWhile p).length }

/-- Characters consumed and newlines seen by `between(start)` (the quoted
variant; every call site uses the default `escapable=True`): stop at the
first `q` not preceded by a backslash. -/
def quoteRun (q : Char) : List Char → Option Char → Nat × Nat
  | [], _ => (0, 0)
  | c :: rest, prev =>
    if c = q ∧ prev ≠ some '\\' then (0, 0)
    else
      let r := quoteRun q rest (some c)
      (r.1 + 1, r.2 + if c = '\n' then 1 else 0)

def betweenQuote (q : Char) (s : ScanSt) : ScanSt :=
  let r := quoteRun q (s.input.drop s.current) (previousS s)
  { s with current := s.current + r.1, line := s.line + r.2 }

/-- Does CPython `Decimal(str)` accept the literal scanned by
`number()`?  `Decimal` strips underscores (`Decimal('1_0') == 10`), and
such literals start with a digit, so of the shapes the scanner can
produce only an exponent marker without following digits is rejected;
then `decimal.InvalidOperation` propagates uncaught (the scanner's
`except CHError` clause never matches it). -/
def decimalAccepts (num : List Char) : Bool :=
  match (num.filter (fun c => !(c = '_'))).dropWhile
      (fun c => !(c = 'e' || c = 'E')) with
  | [] => true
  | _ :: rest =>
    match rest with
    | [] => false
    | c :: t => if c = '+' || c = '-' then !t.isEmpty else true

/-- Is `Decimal(num)` zero (hence falsy in Python)?  Exactly when every
mantissa digit is `0`. -/
def decimalZero (num : List Char) : Bool :=
  ((num.takeWhile (fun c => !(c = 'e' || c = 'E'))).filter
    Char.isDigit).all (fun c => c = '0')

/-- The fraction/exponent tail of `number()` (352–359), entered when a
dot followed by a digit is ahead. -/
def numberTail (s1 : ScanSt) (dotFrac : Bool) : ScanSt :=
  if dotFrac then
    let s2 := (matchS [some '.'] s1).2
    let s2 := runPredNL (fun c => c.isDigit || c = '_') s2
    let me := matchS [some 'e', some 'E'] s2
    if me.1.isSome then
      let s3 := (matchS [some '+', some '-'] me.2).2
      runPredNL (fun c => c.isDigit) s3
    else me.2
  else s1

/-- `self.number()` (349–366).  Returns the scanned literal `num`
(callers need its truthiness) and the new state.  `none` is an uncaught
exception: the `IndexError` of `self.input[self.current + 1]` when the
input ends right after a dot, or `InvalidOperation` from
`Decimal(num)`. -/
def numberS (s : ScanSt) : Option (List Char × ScanSt) :=
  let s1 := runPredNL (fun c => c.isDigit || c = '_') s
  let dotted : Option (Bool × ScanSt) :=
    if peekS s1 = some '.' then
      match s1.input[s1.current + 1]? with
      | none => none
      | some c2 => some (c2.isDigit, s1)
    else some (false, s1)
  match dotted with
  | none => none
  | some (dotFrac, s1) =>
    let s2 := numberTail s1 dotFrac
    let num := (s2.input.take s2.current).drop s2.start
    if num.isEmpty then some (num, s2)
    else if decimalAccepts num then some (num, s2) else none

/-- `self.string(sub)` (368–377): `pair` is `self.previous`, the quote
character just consumed. -/
def stringS (s : ScanSt) : ScanSt :=
  match previousS s with
  | none => s
  | some pair =>
    let s := betweenQuote pair s
    let s := (matchS [some pair] s).2
    addTok .STR s

/-- `self.ps()` (379–384). -/
def psS (s : ScanSt) : ScanSt :=
  let s := runPredNL (fun c => !(c = '\n')) s
  let s := addTok .SEP s
  { s with current := s.current + 1, line := s.line + 1,
           start_of_line := true }

/-- `self.is_path_char(c)` (386–387). -/
def isPathChar (c : Char) : Bool :=
  !c.isWhitespace &&
    !(c ∈ ['<', '>', '"', '/', '|', '?', '*', '(', ')', '\x7b', '\x7d'])

/-- `self.path()` (389–406). -/
def pathS (s : ScanSt) : Bool × ScanSt :=
  if previousS s = some '|' then
    let s := betweenQuote '|' s
    let s := (matchS [some '|'] s).2
    (true, addTok .PATH s)
  else
    let s1 := runPred isPathChar s
    let res := (s1.input.take s1.current).drop s1.start
    if s1.start ≠ s1.current ∧ (res.contains '\\' ∨ res.contains ':') then
      (true, addTok .PATH s1)
    else (false, s1)

def KEYWORDS : List String :=
  ["na", "exam", "done", "submit", "pass", "fail", "redo", "during",
   "makeup", "of", "work", "doc"]

/-- `self.id()` (254–293). -/
def idS (isUnit : String → Bool) (s : ScanSt) : Bool × ScanSt :=
  if previousS s = some '`' then
    let s := betweenQuote '`' s
    let s := (matchS [some '`'] s).2
    (true, addTok .ID s)
  else
    let backtrack := s.current
    let s1 := runPred (fun c => c.isAlphanum || c = '_') s
    if peekS s1 = some '\\' then
      (false, { s1 with current := backtrack })
    else
      let identifier := String.mk ((s1.input.take s1.current).drop s1.start)
      if identifier ∈ KEYWORDS then (true, addTok (.op identifier) s1)
      else if isUnit identifier then (true, addTok .UNIT s1)
      else (true, addTok .ID s1)

/-- `chem_start_letter[c]`: possible second letters of element symbols
beginning with `c`; `none` marks a one-letter symbol (Python's `""`). -/
def chemSeconds (ptable : List String) (c : Char) : List (Option Char) :=
  (ptable.filter (fun v => v.data.head? = some c)).map (fun v => v.data[1]?)

/-- `chem_start_letter.keys()`. -/
def chemFirsts (ptable : List String) : List (Option Char) :=
  ((ptable.filterMap (fun v => v.data.head?)).dedup).map some

/-- `self.element_name()` (408–418): whether a (nonempty) element name
was matched; on failure `current` is restored. -/
def elementName (ptable : List String) (s : ScanSt) : Bool × ScanSt :=
  let backtrack := s.current
  let m1 := matchS (chemFirsts ptable) s
  let sec := match m1.1 with
    | some c => chemSeconds ptable c
    | none => []
  let m2 := matchS sec m1.2
  let matched := m2.1.isSome || decide (none ∈ sec)
  if matched then (true, m2.2)
  else (false, { m2.2 with current := backtrack })

/-- The kind of Python value `script` returns, as consumed by its
callers' truthiness tests and by `EvaluatableDecimal.__set__`
(ch_objs.py): a braced substring (`str`, falsy iff empty), a truthy
`Decimal` from `number()`, the truthy `CHError` that the inner
`expect(..., self.number)` returns for a falsy number (empty literal or
`Decimal` zero), or the call site's `default` for a falsy number on the
no-marker path. -/
inductive ScriptVal where
  | strv (empty : Bool)
  | decv
  | errv
  | defv
  deriving Repr, DecidableEq

/-- `self.script(start, default)` (420–435).  `none` propagates a crash
out of `number()`. -/
def scriptS (c : Char) (s : ScanSt) : Option (ScriptVal × ScanSt) :=
  let m := matchS [some c] s
  if m.1.isSome then
    let s := { m.2 with start := m.2.start + 1 }
    let mb := matchS [some '\x7b'] s
    if mb.1.isSome then
      let s := { mb.2 with start := mb.2.start + 1 }
      let s := runPredNL (fun ch => !(ch = '\x7d')) s
      let s := (matchS [some '\x7d'] s).2
      some (.strv (((s.input.take (s.current - 1)).drop s.start).isEmpty), s)
    else
      match numberS mb.2 with
      | none => none
      | some (num, s1) =>
        if num.isEmpty || decimalZero num then some (.errv, s1)
        else some (.decv, s1)
  else
    match numberS m.2 with
    | none => none
    | some (num, s1) =>
      if num.isEmpty || decimalZero num then some (.defv, s1)
      else some (.decv, s1)

/-- `self.element()` (437–446).  `Element(name, subscript, superscript)`
sets both script values through `EvaluatableDecimal.__set__`, which
accepts `str`/`Decimal`/`int`/`float` and raises on a `CHError`; the
`default`s here are the Decimals 1 and 0, so only the `CHError` kind
crashes. -/
def elementS (ptable : List String) (s : ScanSt) : Option (Bool × ScanSt) :=
  let r := elementName ptable s
  if r.1 = false then some (false, r.2)
  else
    let s := proceedS r.2
    match scriptS '_' s with
    | none => none
    | some (vsub, s) =>
      let s := proceedS s
      match scriptS '^' s with
      | none => none
      | some (vsup, s) =>
        if vsub = .errv ∨ vsup = .errv then none
        else some (true, proceedS s)

mutual

/-- `self._formula()` (459–498).  `some (none, s)` is the backtracked
`None`; `some (some k, s)` is a parsed list of `k` items.  The fuel
bounds the recursion/loop; every loop step consumes input, so
`input.length + 2` always suffices. -/
def formulaInner (ptable : List String) :
    Nat → ScanSt → Option (Option Nat × ScanSt)
  | 0, _ => none
  | fuel + 1, s =>
    match formulaLoop ptable fuel s 0 with
    | none => none
    | some (_early, k, s1) =>
      match peekS s1 with
      | some c =>
        if c.isAlphanum || c = '_' then
          some (none, { s1 with current := s.current, start := s.start })
        else some (some k, s1)
      | none => some (some k, s1)

/-- The `while not self.end` loop of `_formula`; the `Bool` records the
early `return elements` taken at a closing parenthesis. -/
def formulaLoop (ptable : List String) :
    Nat → ScanSt → Nat → Option (Bool × Nat × ScanSt)
  | 0, _, _ => none
  | fuel + 1, s, k =>
    if endS s then some (false, k, s)
    else
      let mp := matchS [some '('] s
      if mp.1.isSome then
        let s1 := proceedS mp.2
        match formulaInner ptable fuel s1 with
        | none => none
        | some (inner, s2) =>
          let s2 := (matchS [some ')'] s2).2
          let s2 := proceedS s2
          match scriptS '_' s2 with
          | none => none
          | some (vsub, s3) =>
            let s3 := proceedS s3
            match scriptS '^' s3 with
            | none => none
            | some (vsup, s4) =>
              -- `SubFormula(tuple(formula), subscript, superscript)`:
              -- `tuple(None)` raises when the inner parse backtracked;
              -- the outer `expect` turns a falsy subscript (the `None`
              -- default or an empty braced string) into a `CHError`,
              -- and `EvaluatableDecimal.__set__` raises on a `CHError`
              -- value (the superscript default `Decimal(0)` and braced
              -- strings are accepted)
              if inner = none then none
              else if vsub = .errv ∨ vsub = .defv ∨ vsub = .strv true then
                none
              else if vsup = .errv then none
              else formulaLoop ptable fuel s4 (k + 1)
      else if peekS s = some ')' then some (true, k, s)
      else
        match peekS s with
        | some c =>
          if (chemFirsts ptable).contains (some c) then
            match elementS ptable s with
            | none => none
            | some (found, s1) =>
              if found then formulaLoop ptable fuel s1 (k + 1)
              else some (false, k, s1)
          else some (false, k, s)
        | none => some (false, k, s)

end

/-- `str.find("done", current)` relative to the suffix. -/
def findSub (pat : List Char) : List Char → Option Nat
  | [] => if pat.isEmpty then some 0 else none
  | c :: t =>
    if List.isPrefixOf pat (c :: t) then some 0
    else (findSub pat t).map (fun n => n + 1)

/-- Python string indexing: a negative index counts from the end; out of
range raises `IndexError`. -/
def pyCharAt (l : List Char) (i : Int) : Option Char :=
  let j := if i < 0 then (l.length : Int) + i else i
  if j < 0 then none else l[j.toNat]?

/-- The backwards whitespace walk of `docstring` (229–232), with its own
fuel (`idx.toNat + 2` steps reach index `-1`, where the stripped input's
non-blank last character stops the walk). -/
def wsWalk (l : List Char) : Nat → Int → Nat → Option (Int × Nat)
  | 0, _, _ => none
  | f + 1, idx, offset =>
    match pyCharAt l idx with
    | none => none
    | some c =>
      if c.isWhitespace then
        wsWalk l f (idx - 1) (offset + if c = '\n' then 1 else 0)
      else some (idx, offset)

/-- `self.docstring()` (219–242).  The dedented text is not kept; one
`STR` token is appended and `current` jumps past `done`.  When `find`
fails, `handler.error` records and the method returns unchanged. -/
def docstringS (s : ScanSt) : Option ScanSt :=
  match findSub ("done".data) (s.input.drop s.current) with
  | none => some s
  | some rel =>
    let rawDone : Nat := s.current + rel
    let s := runPred (fun c => c.isWhitespace) s
    match wsWalk s.input (rawDone + 1) ((rawDone : Int) - 1) 0 with
    | none => none
    | some r =>
      let s := addTok .STR s
      some { s with line := s.line + r.2, current := rawDone + 4 }

/-- `WHITESPACE = {" ": 1, "\t": 4}`. -/
def wsOf (c : Char) : Nat := if c = ' ' then 1 else if c = '\t' then 4 else 0

/-- The leading-whitespace loop of `indent` (510–512): characters
consumed and accumulated depth. -/
def wsRun : List Char → Nat × Nat
  | [] => (0, 0)
  | c :: rest =>
    if wsOf c = 0 then (0, 0)
    else
      let r := wsRun rest
      (r.1 + 1, r.2 + wsOf c)

/-- `while self.indent_stack and self.indent_stack[-1] > depth` (516–517):
pop and emit a `DEDENT` each time.  The stack's top is the list head. -/
def dedentPops (depth : Nat) : List Nat → List TokT → List Nat × List TokT
  | [], toks => ([], toks)
  | top :: rest, toks =>
    if depth < top then dedentPops depth rest (toks ++ [.DEDENT])
    else (top :: rest, toks)

/-- `self.indent()` (500–526). -/
def indentS (s : ScanSt) : ScanSt :=
  if s.start_of_line then
    let r := wsRun (s.input.drop s.current)
    let s := { s with current := s.current + r.1, start := s.current + r.1,
                      start_of_line := false }
    let p := dedentPops r.2 s.indent_stack s.tokens
    let s := { s with indent_stack := p.1, tokens := p.2 }
    let pushQ : Bool := decide (r.2 ≠ 0) &&
      (p.1.isEmpty ||
        (match p.1.head? with
         | some t => decide (t < r.2)
         | none => false))
    if pushQ then
      { s with indent_stack := r.2 :: p.1, tokens := s.tokens ++ [.INDENT] }
    else s
  else s

/-- The dispatch on the consumed character `prev` — the `match prev`
of `scan_token` (120–217).  The source binds intermediate scanner states
to locals; here each pure transformer is simply reapplied. -/
def scanDispatch (ptable : List String) (isUnit : String → Bool)
    (prev : Char) (s : ScanSt) : Option ScanSt :=
  if prev = ' ' ∨ prev = '\t' then some s
  else if prev ∈ ['(', ')', '\x7b', '\x7d', ',', '_', '?', ':', '~'] then
    some (addTok (.op (String.mk [prev])) s)
  else if prev ∈ ['+', '!', '%', '<', '>', '=', '^', '/'] then
    if (matchS [some '='] s).1.isSome then
      some (addTok (.op (String.mk [prev, '='])) (matchS [some '='] s).2)
    else some (addTok (.op (String.mk [prev])) (matchS [some '='] s).2)
  else if prev = '-' then
    if (matchS [some '>'] s).1.isSome then
      some (addTok (.op "->") (matchS [some '>'] s).2)
    else if (matchS [some '='] (matchS [some '>'] s).2).1.isSome then
      some (addTok (.op "-=") (matchS [some '='] (matchS [some '>'] s).2).2)
    else some (addTok (.op "-") (matchS [some '='] (matchS [some '>'] s).2).2)
  else if prev = '*' then
    if (matchS [some '*'] s).1.isSome then
      if (matchS [some '='] (matchS [some '*'] s).2).1.isSome then
        some (addTok .MULMULEQ (matchS [some '='] (matchS [some '*'] s).2).2)
      else some (addTok .MULMUL (matchS [some '='] (matchS [some '*'] s).2).2)
    else some (addTok .MUL (matchS [some '*'] s).2)
  else if prev = '&' then some (addTok .AND (matchS [some '&'] s).2)
  else if prev = '|' then
    if (matchS [some '|'] s).1.isSome then
      some (addTok .OR (matchS [some '|'] s).2)
    else some (pathS (matchS [some '|'] s).2).2
  else if prev = '\n' then
    some (addTok .SEP { s with start_of_line := true, line := s.line + 1 })
  else if prev.isDigit then
    match numberS s with
    | none => none
    | some r => some (addTok .NUM r.2)
  else if prev ∈ ['V', 'N', 'X', 'B', 'K', 'W', 'U', 'G', 'M', 'P', 'S',
      'Y', 'A', 'T', 'E', 'F', 'Z', 'O', 'D', 'H', 'R', 'C', 'L', 'I'] then
    match formulaInner ptable
        ({ s with current := s.current - 1 }.input.length + 2)
        { s with current := s.current - 1 } with
    | none => none
    | some (some _k, s1) => some (addTok .FORMULA s1)
    | some (none, s1) =>
      if (idS isUnit s1).1 then some (idS isUnit s1).2
      else some (pathS (idS isUnit s1).2).2
  else if prev = '`' then some (idS isUnit s).2
  else if prev = '"' ∨ prev = '\'' then some (stringS s)
  else if prev = 'p' then
    if (matchS [some 's'] s).1.isSome then
      some (psS (matchS [some 's'] s).2)
    else if (idS isUnit (matchS [some 's'] s).2).1 then
      some (idS isUnit (matchS [some 's'] s).2).2
    else some (pathS (idS isUnit (matchS [some 's'] s).2).2).2
  else if prev = 's' then
    if (matchS [some '"'] s).1.isSome then
      some (stringS { (matchS [some '"'] s).2 with
        start := (matchS [some '"'] s).2.start + 1 })
    else if (matchS [some '\''] (matchS [some '"'] s).2).1.isSome then
      some (stringS { (matchS [some '\''] (matchS [some '"'] s).2).2 with
        start := (matchS [some '\''] (matchS [some '"'] s).2).2.start + 1 })
    else if (idS isUnit (matchS [some '\''] (matchS [some '"'] s).2).2).1 then
      some (idS isUnit (matchS [some '\''] (matchS [some '"'] s).2).2).2
    else
      some (pathS (idS isUnit (matchS [some '\''] (matchS [some '"'] s).2).2).2).2
  else if prev = '.' then
    if (matchS [some '.'] s).1.isSome then
      if (matchS [some '.'] (matchS [some '.'] s).2).1.isSome then
        some (addTok .INTERVAL (matchS [some '.'] (matchS [some '.'] s).2).2)
      else some (matchS [some '.'] (matchS [some '.'] s).2).2
    else some (matchS [some '.'] s).2
  else if prev.isAlpha then
    if (idS isUnit s).1 then
      match (idS isUnit s).2.tokens.getLast? with
      | some t =>
        if t = .op "doc" then
          docstringS { (idS isUnit s).2 with
            tokens := (idS isUnit s).2.tokens.dropLast }
        else some (idS isUnit s).2
      | none => none
    else some (pathS (idS isUnit s).2).2
  else some s

/-- `self.scan_token()` (115–217): `indent()`, consume one character,
dispatch.  An empty `advance()` result (`""`) is not alphabetic and ends
in the default `handler.error` branch, which records and returns. -/
def scanToken (ptable : List String) (isUnit : String → Bool)
    (s : ScanSt) : Option ScanSt :=
  let s := indentS s
  let a := advanceS s
  match a.1 with
  | none => some a.2
  | some prev => scanDispatch ptable isUnit prev a.2

/-- The `while self.indent_stack` drain of `scan_tokens` (108–109). -/
def drainDedents : List Nat → List TokT → List TokT
  | [], toks => toks
  | _ :: rest, toks => drainDedents rest (toks ++ [.DEDENT])

/-- The `while not self.end` loop of `scan_tokens` (103–105). -/
def scanTokensLoop (ptable : List String) (isUnit : String → Bool) :
    Nat → ScanSt → Option ScanSt
  | 0, s => if endS s then some s else none
  | fuel + 1, s =>
    if endS s then some s
    else
      match scanToken ptable isUnit s with
      | none => none
      | some s1 => scanTokensLoop ptable isUnit fuel { s1 with start := s1.current }

/-- The tail of `scan_tokens` (106–111): the final `SEP` (the stripped
input never ends in a newline; on EMPTY input `self.input[-1]` raises
`IndexError`), the DEDENT drain, and `EOF`. -/
def scanTokensFin (s : ScanSt) : Option ScanSt :=
  match s.input.getLast? with
  | none => none
  | some c =>
    let s := if c ≠ '\n' then addTok .SEP s else s
    let s := { s with tokens := drainDedents s.indent_stack s.tokens,
                      indent_stack := ([] : List Nat) }
    some (addTok .EOF s)

/-- `str.strip()` in `Scanner.__init__`. -/
def stripPy (l : List Char) : List Char :=
  ((l.dropWhile Char.isWhitespace).reverse.dropWhile Char.isWhitespace).reverse

def scanInit (src : List Char) : ScanSt :=
  ⟨stripPy src, 0, 0, 1, true, [], []⟩

/-- `Scanner(src).scan_tokens()`. -/
def scanTokens (ptable : List String) (isUnit : String → Bool) (fuel : Nat)
    (src : List Char) : Option (List TokT) :=
  match scanTokensLoop ptable isUnit fuel (scanInit src) with
  | none => none
  | some s =>
    match scanTokensFin s with
    | none => none
    | some s1 => some s1.tokens

/-! ### Scanner lemmas: INDENT/DEDENT bookkeeping -/

def countTok (t : TokT) (l : List TokT) : Nat := l.count t

/-- Helpers that only move `current`/`start`/`line`/`start_of_line`. -/
def SameToks (s s' : ScanSt) : Prop :=
  s'.tokens = s.tokens ∧ s'.indent_stack = s.indent_stack

/-- Steps that may append tokens, but neither `INDENT` nor `DEDENT`, and
leave the indent stack alone. -/
def ExtToks (s s' : ScanSt) : Prop :=
  s'.indent_stack = s.indent_stack ∧
  countTok .INDENT s'.tokens = countTok .INDENT s.tokens ∧
  countTok .DEDENT s'.tokens = countTok .DEDENT s.tokens

/-- The scan invariant: one pushed depth per `INDENT` not yet matched by
a `DEDENT`. -/
def invS (s : ScanSt) : Prop :=
  countTok .INDENT s.tokens = countTok .DEDENT s.tokens + s.indent_stack.length

theorem sameToks_rfl (s : ScanSt) : SameToks s s := ⟨rfl, rfl⟩

theorem SameToks.ext {s s' : ScanSt} (h : SameToks s s') : ExtToks s s' :=
  ⟨h.2, by rw [h.1], by rw [h.1]⟩

theorem extToks_rfl (s : ScanSt) : ExtToks s s := ⟨rfl, rfl, rfl⟩

theorem ExtToks.trans {s t u : ScanSt} (h1 : ExtToks s t) (h2 : ExtToks t u) :
    ExtToks s u :=
  ⟨h2.1.trans h1.1, h2.2.1.trans h1.2.1, h2.2.2.trans h1.2.2⟩

theorem ExtToks.inv {s s' : ScanSt} (h : ExtToks s s') (hi : invS s) :
    invS s' := by
  unfold invS at hi ⊢
  rw [h.2.1, h.2.2, h.1, hi]

theorem addTok_ext {t : TokT} (ht1 : t ≠ .INDENT) (ht2 : t ≠ .DEDENT)
    (s : ScanSt) : ExtToks s (addTok t s) := by
  refine ⟨rfl, ?_, ?_⟩ <;>
    simp [addTok, countTok, List.count_append, List.count_singleton,
      ht1, ht2]

@[simp] theorem matchS_tokens (cs : List (Option Char)) (s : ScanSt) :
    (matchS cs s).2.tokens = s.tokens := by
  unfold matchS
  split <;> rfl

@[simp] theorem matchS_stack (cs : List (Option Char)) (s : ScanSt) :
    (matchS cs s).2.indent_stack = s.indent_stack := by
  unfold matchS
  split <;> rfl

@[simp] theorem advanceS_tokens (s : ScanSt) :
    (advanceS s).2.tokens = s.tokens := by
  unfold advanceS
  split <;> rfl

@[simp] theorem advanceS_stack (s : ScanSt) :
    (advanceS s).2.indent_stack = s.indent_stack := by
  unfold advanceS
  split <;> rfl

@[simp] theorem runPred_tokens (p : Char → Bool) (s : ScanSt) :
    (runPred p s).tokens = s.tokens := rfl

@[simp] theorem runPred_stack (p : Char → Bool) (s : ScanSt) :
    (runPred p s).indent_stack = s.indent_stack := rfl

@[simp] theorem runPredNL_tokens (p : Char → Bool) (s : ScanSt) :
    (runPredNL p s).tokens = s.tokens := rfl

@[simp] theorem runPredNL_stack (p : Char → Bool) (s : ScanSt) :
    (runPredNL p s).indent_stack = s.indent_stack := rfl

@[simp] theorem betweenQuote_tokens (q : Char) (s : ScanSt) :
    (betweenQuote q s).tokens = s.tokens := rfl

@[simp] theorem betweenQuote_stack (q : Char) (s : ScanSt) :
    (betweenQuote q s).indent_stack = s.indent_stack := rfl

@[simp] theorem proceedS_tokens (s : ScanSt) :
    (proceedS s).tokens = s.tokens := rfl

@[simp] theorem proceedS_stack (s : ScanSt) :
    (proceedS s).indent_stack = s.indent_stack := rfl

@[simp] theorem numberTail_tokens (s : ScanSt) (b : Bool) :
    (numberTail s b).tokens = s.tokens := by
  unfold numberTail
  split
  · dsimp only
    split <;> simp
  · rfl

@[simp] theorem numberTail_stack (s : ScanSt) (b : Bool) :
    (numberTail s b).indent_stack = s.indent_stack := by
  unfold numberTail
  split
  · dsimp only
    split <;> simp
  · rfl

theorem sameToks_trans {s t u : ScanSt} (h1 : SameToks s t)
    (h2 : SameToks t u) : SameToks s u :=
  ⟨h2.1.trans h1.1, h2.2.trans h1.2⟩

theorem sameToks_numberS {s : ScanSt} {num : List Char} {s' : ScanSt}
    (h : numberS s = some (num, s')) : SameToks s s' := by
  unfold numberS at h
  dsimp only at h
  split at h
  · exact absurd h (by simp)
  · rename_i dotFrac s1 heq
    have hs1 : s1.tokens = s.tokens ∧ s1.indent_stack = s.indent_stack := by
      split at heq
      · split at heq
        · exact absurd heq (by simp)
        · injection heq with he
          injection he with he1 he2
          subst he2
          simp
      · injection heq with he
        injection he with he1 he2
        subst he2
        simp
    split at h
    · injection h with h
      injection h with h1 h2
      subst h2
      exact ⟨by simp [hs1.1], by simp [hs1.2]⟩
    · split at h
      · injection h with h
        injection h with h1 h2
        subst h2
        exact ⟨by simp [hs1.1], by simp [hs1.2]⟩
      · exact absurd h (by simp)

theorem sameToks_scriptS {c : Char} {s : ScanSt} {v : ScriptVal}
    {s' : ScanSt} (h : scriptS c s = some (v, s')) : SameToks s s' := by
  unfold scriptS at h
  dsimp only at h
  split at h
  · split at h
    · injection h with h
      injection h with h1 h2
      subst h2
      exact ⟨by simp, by simp⟩
    · split at h
      · exact absurd h (by simp)
      · rename_i num s1 hnum
        have hn := sameToks_numberS hnum
        split at h <;>
          · injection h with h
            injection h with h1 h2
            subst h2
            exact ⟨by simp [hn.1], by simp [hn.2]⟩
  · split at h
    · exact absurd h (by simp)
    · rename_i num s1 hnum
      have hn := sameToks_numberS hnum
      split at h <;>
        · injection h with h
          injection h with h1 h2
          subst h2
          exact ⟨by simp [hn.1], by simp [hn.2]⟩

theorem sameToks_elementName (ptable : List String) (s : ScanSt) :
    SameToks s (elementName ptable s).2 := by
  unfold elementName
  dsimp only
  split <;> exact ⟨by simp, by simp⟩

theorem sameToks_elementS {ptable : List String} {s : ScanSt}
    {r : Bool × ScanSt} (h : elementS ptable s = some r) :
    SameToks s r.2 := by
  unfold elementS at h
  dsimp only at h
  split at h
  · injection h with h
    subst h
    exact sameToks_elementName ptable s
  · split at h
    · exact absurd h (by simp)
    · rename_i vsub s1 hs1
      split at h
      · exact absurd h (by simp)
      · rename_i vsup s2 hs2
        have h1 := sameToks_elementName ptable s
        have h2 := sameToks_scriptS hs1
        have h3 := sameToks_scriptS hs2
        split at h
        · exact absurd h (by simp)
        · injection h with h
          subst h
          exact ⟨by simp [h3.1, h2.1, h1.1], by simp [h3.2, h2.2, h1.2]⟩

theorem formula_sameToks (ptable : List String) :
    ∀ fuel : Nat,
      (∀ s r, formulaInner ptable fuel s = some r → SameToks s r.2) ∧
      (∀ s k r, formulaLoop ptable fuel s k = some r → SameToks s r.2.2) := by
  intro fuel
  induction fuel with
  | zero =>
    exact ⟨fun s r h => absurd h (by simp [formulaInner]),
      fun s k r h => absurd h (by simp [formulaLoop])⟩
  | succ f ih =>
    constructor
    · intro s r h
      unfold formulaInner at h
      split at h
      · exact absurd h (by simp)
      · rename_i early k s1 hloop
        have hl : SameToks s s1 := ih.2 s 0 _ hloop
        split at h
        · split at h
          · injection h with h
            subst h
            exact ⟨by simp [hl.1], by simp [hl.2]⟩
          · injection h with h
            subst h
            exact hl
        · injection h with h
          subst h
          exact hl
    · intro s k r h
      unfold formulaLoop at h
      dsimp only at h
      split at h
      · injection h with h
        subst h
        exact sameToks_rfl s
      · split at h
        · split at h
          · exact absurd h (by simp)
          · rename_i inner s2 hinner
            have h1 : SameToks (proceedS (matchS [some '('] s).2) s2 :=
              ih.1 _ _ hinner
            split at h
            · exact absurd h (by simp)
            · rename_i vsub s3 hs3
              have h2 := sameToks_scriptS hs3
              split at h
              · exact absurd h (by simp)
              · rename_i vsup s4 hs4
                have h3 := sameToks_scriptS hs4
                split at h
                · exact absurd h (by simp)
                · split at h
                  · exact absurd h (by simp)
                  · split at h
                    · exact absurd h (by simp)
                    · have h4 : SameToks s4 r.2.2 := ih.2 _ (k + 1) _ h
                      exact ⟨by simp [h4.1, h3.1, h2.1, h1.1],
                        by simp [h4.2, h3.2, h2.2, h1.2]⟩
        · split at h
          · injection h with h
            subst h
            exact sameToks_rfl s
          · split at h
            · rename_i c hc
              split at h
              · split at h
                · exact absurd h (by simp)
                · rename_i found s1 helem
                  have h1 := sameToks_elementS helem
                  split at h
                  · have h2 : SameToks s1 r.2.2 := ih.2 _ (k + 1) _ h
                    exact ⟨h2.1.trans h1.1, h2.2.trans h1.2⟩
                  · injection h with h
                    subst h
                    exact h1
              · injection h with h
                subst h
                exact sameToks_rfl s
            · injection h with h
              subst h
              exact sameToks_rfl s

theorem extToks_addTok_of_same {s t : ScanSt} {u : TokT}
    (h : SameToks s t) (h1 : u ≠ .INDENT) (h2 : u ≠ .DEDENT) :
    ExtToks s (addTok u t) :=
  ExtToks.trans h.ext (addTok_ext h1 h2 t)

theorem extToks_stringS (s : ScanSt) : ExtToks s (stringS s) := by
  unfold stringS
  split
  · exact extToks_rfl s
  · refine extToks_addTok_of_same ⟨by simp, by simp⟩ (by simp) (by simp)

theorem extToks_psS (s : ScanSt) : ExtToks s (psS s) := by
  unfold psS
  have h := extToks_addTok_of_same (s := s)
    (t := runPredNL (fun c => !(c = '\n')) s) ⟨by simp, by simp⟩
    (u := .SEP) (by simp) (by simp)
  exact ⟨h.1, h.2.1, h.2.2⟩

theorem extToks_pathS (s : ScanSt) : ExtToks s (pathS s).2 := by
  unfold pathS
  split
  · exact extToks_addTok_of_same ⟨by simp, by simp⟩ (by simp) (by simp)
  · dsimp only
    split
    · exact extToks_addTok_of_same ⟨by simp, by simp⟩ (by simp) (by simp)
    · exact SameToks.ext ⟨by simp, by simp⟩

theorem extToks_idS (isUnit : String → Bool) (s : ScanSt) :
    ExtToks s (idS isUnit s).2 := by
  unfold idS
  split
  · exact extToks_addTok_of_same ⟨by simp, by simp⟩ (by simp) (by simp)
  · dsimp only
    split
    · exact SameToks.ext ⟨by simp, by simp⟩
    · split
      · exact extToks_addTok_of_same ⟨by simp, by simp⟩ (by simp) (by simp)
      · split
        · exact extToks_addTok_of_same ⟨by simp, by simp⟩ (by simp) (by simp)
        · exact extToks_addTok_of_same ⟨by simp, by simp⟩ (by simp) (by simp)

theorem extToks_docstringS {s s' : ScanSt} (h : docstringS s = some s') :
    ExtToks s s' := by
  unfold docstringS at h
  split at h
  · injection h with h
    subst h
    exact extToks_rfl s
  · dsimp only at h
    split at h
    · exact absurd h (by simp)
    · injection h with h
      subst h
      have he := extToks_addTok_of_same (s := s)
        (t := runPred (fun c => c.isWhitespace) s) ⟨by simp, by simp⟩
        (u := .STR) (by simp) (by simp)
      exact ⟨he.1, he.2.1, he.2.2⟩

theorem dedentPops_spec (depth : Nat) :
    ∀ (st : List Nat) (toks : List TokT),
      countTok .INDENT (dedentPops depth st toks).2 =
          countTok .INDENT toks ∧
        countTok .DEDENT (dedentPops depth st toks).2 +
            (dedentPops depth st toks).1.length =
          countTok .DEDENT toks + st.length
  | [], toks => by simp [dedentPops]
  | top :: rest, toks => by
    unfold dedentPops
    split
    · have ih := dedentPops_spec depth rest (toks ++ [.DEDENT])
      refine ⟨?_, ?_⟩
      · rw [ih.1]
        simp [countTok, List.count_append]
      · have h2 := ih.2
        simp only [countTok, List.count_append, List.count_singleton,
          List.count_cons, List.count_nil] at h2 ⊢
        simp at h2 ⊢
        omega
    · simp

theorem drainDedents_spec :
    ∀ (st : List Nat) (toks : List TokT),
      countTok .INDENT (drainDedents st toks) = countTok .INDENT toks ∧
      countTok .DEDENT (drainDedents st toks) =
        countTok .DEDENT toks + st.length
  | [], toks => by simp [drainDedents]
  | _ :: rest, toks => by
    unfold drainDedents
    have ih := drainDedents_spec rest (toks ++ [.DEDENT])
    refine ⟨?_, ?_⟩
    · rw [ih.1]
      simp [countTok, List.count_append]
    · rw [ih.2]
      simp only [countTok, List.count_append, List.count_singleton]
      simp
      omega

theorem indentS_inv {s : ScanSt} (h : invS s) : invS (indentS s) := by
  unfold indentS
  split
  · have hd := dedentPops_spec (wsRun (s.input.drop s.current)).2
      s.indent_stack s.tokens
    dsimp only
    split
    · unfold invS at h ⊢
      dsimp only
      simp only [countTok, List.count_append, List.count_singleton,
        List.length_cons] at hd h ⊢
      simp at hd h ⊢
      omega
    · unfold invS at h ⊢
      dsimp only
      simp only [countTok] at hd h ⊢
      omega
  · exact h

theorem countTok_dropLast {l : List TokT} {t u : TokT}
    (hl : l.getLast? = some t) (ht : t ≠ u) :
    countTok u l.dropLast = countTok u l := by
  rw [List.getLast?_eq_some_iff] at hl
  obtain ⟨ys, rfl⟩ := hl
  rw [List.dropLast_concat]
  simp only [countTok, List.count_append, List.count_cons, List.count_nil,
    beq_iff_eq]
  rw [if_neg ht]
  omega

theorem scanDispatch_inv {ptable : List String} {isUnit : String → Bool}
    {prev : Char} {s s' : ScanSt}
    (h : scanDispatch ptable isUnit prev s = some s') (hi : invS s) :
    invS s' := by
  have hleaf : ∀ t : ScanSt, some t = some s' → ExtToks s t → invS s' := by
    intro t ht he
    injection ht with ht
    subst ht
    exact ExtToks.inv he hi
  delta scanDispatch at h
  by_cases c1 : prev = ' ' ∨ prev = '\t'
  · rw [if_pos c1] at h
    exact hleaf s h (extToks_rfl s)
  rw [if_neg c1] at h
  by_cases c2 : prev ∈ ['(', ')', '\x7b', '\x7d', ',', '_', '?', ':', '~']
  · rw [if_pos c2] at h
    exact hleaf _ h (addTok_ext (by simp) (by simp) s)
  rw [if_neg c2] at h
  by_cases c3 : prev ∈ ['+', '!', '%', '<', '>', '=', '^', '/']
  · rw [if_pos c3] at h
    by_cases b : (matchS [some '='] s).1.isSome
    · rw [if_pos b] at h
      exact hleaf _ h
        (extToks_addTok_of_same ⟨by simp, by simp⟩ (by simp) (by simp))
    · rw [if_neg b] at h
      exact hleaf _ h
        (extToks_addTok_of_same ⟨by simp, by simp⟩ (by simp) (by simp))
  rw [if_neg c3] at h
  by_cases c4 : prev = '-'
  · rw [if_pos c4] at h
    by_cases b : (matchS [some '>'] s).1.isSome
    · rw [if_pos b] at h
      exact hleaf _ h
        (extToks_addTok_of_same ⟨by simp, by simp⟩ (by simp) (by simp))
    · rw [if_neg b] at h
      by_cases b2 : (matchS [some '='] (matchS [some '>'] s).2).1.isSome
      · rw [if_pos b2] at h
        exact hleaf _ h
          (extToks_addTok_of_same ⟨by simp, by simp⟩ (by simp) (by simp))
      · rw [if_neg b2] at h
        exact hleaf _ h
          (extToks_addTok_of_same ⟨by simp, by simp⟩ (by simp) (by simp))
  rw [if_neg c4] at h
  by_cases c5 : prev = '*'
  · rw [if_pos c5] at h
    by_cases b : (matchS [some '*'] s).1.isSome
    · rw [if_pos b] at h
      by_cases b2 : (matchS [some '='] (matchS [some '*'] s).2).1.isSome
      · rw [if_pos b2] at h
        exact hleaf _ h
          (extToks_addTok_of_same ⟨by simp, by simp⟩ (by simp) (by simp))
      · rw [if_neg b2] at h
        exact hleaf _ h
          (extToks_addTok_of_same ⟨by simp, by simp⟩ (by simp) (by simp))
    · rw [if_neg b] at h
      exact hleaf _ h
        (extToks_addTok_of_same ⟨by simp, by simp⟩ (by simp) (by simp))
  rw [if_neg c5] at h
  by_cases c6 : prev = '&'
  · rw [if_pos c6] at h
    exact hleaf _ h
      (extToks_addTok_of_same ⟨by simp, by simp⟩ (by simp) (by simp))
  rw [if_neg c6] at h
  by_cases c7 : prev = '|'
  · rw [if_pos c7] at h
    by_cases b : (matchS [some '|'] s).1.isSome
    · rw [if_pos b] at h
      exact hleaf _ h
        (extToks_addTok_of_same ⟨by simp, by simp⟩ (by simp) (by simp))
    · rw [if_neg b] at h
      exact hleaf _ h
        (ExtToks.trans (SameToks.ext ⟨by simp, by simp⟩) (extToks_pathS _))
  rw [if_neg c7] at h
  by_cases c8 : prev = '\n'
  · rw [if_pos c8] at h
    exact hleaf _ h (extToks_addTok_of_same ⟨rfl, rfl⟩ (by simp) (by simp))
  rw [if_neg c8] at h
  by_cases c9 : prev.isDigit
  · rw [if_pos c9] at h
    cases hnum : numberS s with
    | none =>
      rw [hnum] at h
      exact absurd h (by simp)
    | some r =>
      obtain ⟨num, s1⟩ := r
      simp only [hnum] at h
      exact hleaf _ (by rw [h]) (extToks_addTok_of_same
        (sameToks_numberS hnum) (by simp) (by simp))
  rw [if_neg c9] at h
  by_cases c10 : prev ∈ ['V', 'N', 'X', 'B', 'K', 'W', 'U', 'G', 'M', 'P',
      'S', 'Y', 'A', 'T', 'E', 'F', 'Z', 'O', 'D', 'H', 'R', 'C', 'L', 'I']
  · rw [if_pos c10] at h
    cases hform : formulaInner ptable
        ({ s with current := s.current - 1 }.input.length + 2)
        { s with current := s.current - 1 } with
    | none =>
      rw [hform] at h
      exact absurd h (by simp)
    | some r =>
      obtain ⟨res, s1⟩ := r
      have hf : SameToks s s1 :=
        sameToks_trans (⟨rfl, rfl⟩ :
            SameToks s { s with current := s.current - 1 })
          ((formula_sameToks ptable _).1 _ _ hform)
      cases res with
      | some k =>
        simp only [hform] at h
        exact hleaf _ (by rw [h])
          (extToks_addTok_of_same hf (by simp) (by simp))
      | none =>
        simp only [hform] at h
        by_cases b : (idS isUnit s1).1
        · rw [if_pos b] at h
          exact hleaf _ h (ExtToks.trans hf.ext (extToks_idS _ _))
        · rw [if_neg b] at h
          exact hleaf _ h (ExtToks.trans hf.ext
            (ExtToks.trans (extToks_idS _ _) (extToks_pathS _)))
  rw [if_neg c10] at h
  by_cases c11 : prev = '`'
  · rw [if_pos c11] at h
    exact hleaf _ h (extToks_idS _ _)
  rw [if_neg c11] at h
  by_cases c12 : prev = '"' ∨ prev = '\''
  · rw [if_pos c12] at h
    exact hleaf _ h (extToks_stringS _)
  rw [if_neg c12] at h
  by_cases c13 : prev = 'p'
  · rw [if_pos c13] at h
    by_cases b : (matchS [some 's'] s).1.isSome
    · rw [if_pos b] at h
      exact hleaf _ h
        (ExtToks.trans (SameToks.ext ⟨by simp, by simp⟩) (extToks_psS _))
    · rw [if_neg b] at h
      by_cases b2 : (idS isUnit (matchS [some 's'] s).2).1
      · rw [if_pos b2] at h
        exact hleaf _ h
          (ExtToks.trans (SameToks.ext ⟨by simp, by simp⟩) (extToks_idS _ _))
      · rw [if_neg b2] at h
        exact hleaf _ h
          (ExtToks.trans (SameToks.ext ⟨by simp, by simp⟩)
            (ExtToks.trans (extToks_idS _ _) (extToks_pathS _)))
  rw [if_neg c13] at h
  by_cases c14 : prev = 's'
  · rw [if_pos c14] at h
    by_cases b : (matchS [some '"'] s).1.isSome
    · rw [if_pos b] at h
      exact hleaf _ h
        (ExtToks.trans (SameToks.ext ⟨by simp, by simp⟩) (extToks_stringS _))
    · rw [if_neg b] at h
      by_cases b2 : (matchS [some '\''] (matchS [some '"'] s).2).1.isSome
      · rw [if_pos b2] at h
        exact hleaf _ h
          (ExtToks.trans (SameToks.ext ⟨by simp, by simp⟩)
            (extToks_stringS _))
      · rw [if_neg b2] at h
        by_cases b3 : (idS isUnit (matchS [some '\''] (matchS [some '"'] s).2).2).1
        · rw [if_pos b3] at h
          exact hleaf _ h
            (ExtToks.trans (SameToks.ext ⟨by simp, by simp⟩)
              (extToks_idS _ _))
        · rw [if_neg b3] at h
          exact hleaf _ h
            (ExtToks.trans (SameToks.ext ⟨by simp, by simp⟩)
              (ExtToks.trans (extToks_idS _ _) (extToks_pathS _)))
  rw [if_neg c14] at h
  by_cases c15 : prev = '.'
  · rw [if_pos c15] at h
    by_cases b : (matchS [some '.'] s).1.isSome
    · rw [if_pos b] at h
      by_cases b2 : (matchS [some '.'] (matchS [some '.'] s).2).1.isSome
      · rw [if_pos b2] at h
        exact hleaf _ h
          (extToks_addTok_of_same ⟨by simp, by simp⟩ (by simp) (by simp))
      · rw [if_neg b2] at h
        exact hleaf _ h (SameToks.ext ⟨by simp, by simp⟩)
    · rw [if_neg b] at h
      exact hleaf _ h (SameToks.ext ⟨by simp, by simp⟩)
  rw [if_neg c15] at h
  by_cases c16 : prev.isAlpha
  · rw [if_pos c16] at h
    by_cases b : (idS isUnit s).1
    · rw [if_pos b] at h
      cases hget : (idS isUnit s).2.tokens.getLast? with
      | none =>
        rw [hget] at h
        exact absurd h (by simp)
      | some t =>
        simp only [hget] at h
        by_cases bd : t = .op "doc"
        · rw [if_pos bd] at h
          have hiI : invS (idS isUnit s).2 :=
            ExtToks.inv (extToks_idS _ _) hi
          have hiD : invS { (idS isUnit s).2 with
              tokens := (idS isUnit s).2.tokens.dropLast } := by
            unfold invS at hiI ⊢
            dsimp only
            rw [countTok_dropLast hget (by simp [bd]),
              countTok_dropLast hget (by simp [bd])]
            exact hiI
          exact ExtToks.inv (extToks_docstringS h) hiD
        · rw [if_neg bd] at h
          exact hleaf _ h (extToks_idS _ _)
    · rw [if_neg b] at h
      exact hleaf _ h
        (ExtToks.trans (extToks_idS _ _) (extToks_pathS _))
  rw [if_neg c16] at h
  exact hleaf _ h (extToks_rfl s)

theorem scanToken_inv {ptable : List String} {isUnit : String → Bool}
    {s s' : ScanSt} (h : scanToken ptable isUnit s = some s')
    (hi : invS s) : invS s' := by
  unfold scanToken at h
  have hi0 : invS (indentS s) := indentS_inv hi
  have hiA : invS (advanceS (indentS s)).2 :=
    ExtToks.inv (SameToks.ext ⟨by simp, by simp⟩) hi0
  dsimp only at h
  split at h
  · injection h with h
    subst h
    exact hiA
  · exact scanDispatch_inv h hiA
theorem scanTokensLoop_inv {ptable : List String} {isUnit : String → Bool} :
    ∀ (fuel : Nat) {s s' : ScanSt},
      scanTokensLoop ptable isUnit fuel s = some s' → invS s → invS s'
  | 0, s, s' => by
    intro h hi
    unfold scanTokensLoop at h
    split at h
    · injection h with h
      subst h
      exact hi
    · exact absurd h (by simp)
  | fuel + 1, s, s' => by
    intro h hi
    unfold scanTokensLoop at h
    split at h
    · injection h with h
      subst h
      exact hi
    · split at h
      · exact absurd h (by simp)
      · rename_i s1 hs1
        have h1 : invS s1 := scanToken_inv hs1 hi
        have h2 : invS { s1 with start := s1.current } := h1
        exact scanTokensLoop_inv fuel h h2

theorem scanTokensFin_balanced {s s1 : ScanSt}
    (h : scanTokensFin s = some s1) (hi : invS s) :
    countTok .INDENT s1.tokens = countTok .DEDENT s1.tokens := by
  unfold scanTokensFin at h
  split at h
  · exact absurd h (by simp)
  · rename_i c hc
    have hsep : invS (if c ≠ '\n' then addTok .SEP s else s) := by
      split
      · exact ExtToks.inv (addTok_ext (by simp) (by simp) s) hi
      · exact hi
    set s2 := if c ≠ '\n' then addTok .SEP s else s with hs2
    have hstack : s2.indent_stack = s.indent_stack := by
      rw [hs2]
      split <;> rfl
    have hd := drainDedents_spec s2.indent_stack s2.tokens
    injection h with h
    subst h
    unfold invS at hsep
    simp only [addTok, countTok, List.count_append] at hd hsep ⊢
    simp at hd hsep ⊢
    omega

/-- **C9.** For every source text whose scan completes (any periodic
table and unit registry), the token list contains equally many `INDENT`
and `DEDENT` tokens: an `INDENT` is appended exactly when a depth is
pushed, a `DEDENT` exactly when one is popped, and end-of-input drains
the remaining stack as `DEDENT`s before `EOF`. -/
theorem scanner_indent_balanced (ptable : List String)
    (isUnit : String → Bool) (fuel : Nat) (src : List Char)
    (toks : List TokT)
    (h : scanTokens ptable isUnit fuel src = some toks) :
    countTok .INDENT toks = countTok .DEDENT toks := by
  unfold scanTokens at h
  split at h
  · exact absurd h (by simp)
  · rename_i s hs
    split at h
    · exact absurd h (by simp)
    · rename_i s1 hs1
      injection h with h
      subst h
      have hi0 : invS (scanInit src) := by
        unfold invS scanInit countTok
        simp
      have hi : invS s := scanTokensLoop_inv fuel hs hi0
      exact scanTokensFin_balanced hs1 hi

theorem scanner_indent_balanced_witness :
    countTok .INDENT
        [TokT.ID, .SEP, .INDENT, .ID, .SEP, .DEDENT, .EOF] =
      countTok .DEDENT
        [TokT.ID, .SEP, .INDENT, .ID, .SEP, .DEDENT, .EOF] :=
  scanner_indent_balanced [] (fun _ => false) 10 ("a\n b".data)
    [TokT.ID, .SEP, .INDENT, .ID, .SEP, .DEDENT, .EOF] (by rfl)

end ChemLang
